import Mathlib

/-!
# k8s-dqlite: the kine dqlite driver (`pkg/drivers/dqlite/dqlite.go`)

A shallow embedding of `AddPeers`, `parseOpts`, `migrate`, `getDialer` and `New`,
together with the parts of the Go standard library they call
(`strings.SplitN`, `url.ParseQuery`, `url.Values.Encode`, `strconv.ParseUint`)
and of `database/sql` (a connection pool with auto-committed statements and
transactions that buffer their own writes).

Go strings are byte sequences; errors are values of the inductive type `Error`;
collaborators that can fail (membership store, database, driver constructor)
take their failure as an explicit argument.
-/

namespace Dqlite

/-! ## Strings and errors -/

/-- A Go string: a sequence of bytes. -/
abbrev Str := List (Fin 256)

/-- The bytes of an ASCII literal. -/
def ascii (s : String) : Str := s.toList.map (fun c => Fin.ofNat c.toNat)

/-- Go error values that reach the functions of this package. -/
inductive Error where
  /-- an error produced by a collaborator (membership store, driver, database, file system) -/
  | external (msg : Str)
  /-- `errors.New(msg)` and `fmt.Errorf` with its formatted text -/
  | text (msg : Str)
  /-- `url.EscapeError(s)` -/
  | escape (s : Str)
  /-- `strconv.NumError` of `ParseUint` on `num`: `ErrRange` when `range`, else `ErrSyntax` -/
  | numError (num : Str) (range : Bool)
  /-- a `driver.Error` of go-dqlite with its code -/
  | driver (code : Nat) (msg : Str)
  /-- `errors.Wrap(cause, msg)` -/
  | wrap (cause : Error) (msg : Str)
  deriving DecidableEq, Repr

/-- The text of `err.Error()`. The strings that `strconv.Quote` puts between quotes are
written as they are, which is what `Quote` does for printable ASCII without `"` and `\`. -/
def Error.message : Error → Str
  | .external msg => msg
  | .driver _ msg => msg
  | .text msg => msg
  | .escape s => ascii "invalid URL escape \"" ++ s ++ ascii "\""
  | .numError num range =>
      ascii "strconv.ParseUint: parsing \"" ++ num ++ ascii "\": " ++
        (if range then ascii "value out of range" else ascii "invalid syntax")
  | .wrap cause msg => msg ++ ascii ": " ++ cause.message

/-! ## Membership store and `AddPeers` -/

/-- `client.NodeInfo`: a node id (uint64) and its address. -/
structure NodeInfo where
  ID : Nat
  Address : Str
  deriving DecidableEq, Repr

/-- A `client.NodeStore`: the servers it holds and how many times `Set` was called on it. -/
structure NodeStore where
  servers : List NodeInfo
  setCalls : Nat
  deriving DecidableEq, Repr

/-- The failures the store answers with during one call of `AddPeers`. -/
structure StoreFaults where
  getErr : Option Error
  setErr : Option Error
  deriving DecidableEq, Repr

/-- No failure. -/
def StoreFaults.none : StoreFaults := ⟨Option.none, Option.none⟩

/-- `nodeStore.Get(ctx)`. -/
def NodeStore.Get (f : StoreFaults) (s : NodeStore) : Except Error (List NodeInfo) :=
  match f.getErr with
  | some err => .error err
  | Option.none => .ok s.servers

/-- `nodeStore.Set(ctx, servers)`: a failed `Set` leaves the held servers as they were. -/
def NodeStore.Set (f : StoreFaults) (s : NodeStore) (servers : List NodeInfo) :
    NodeStore × Option Error :=
  match f.setErr with
  | some err => ({ s with setCalls := s.setCalls + 1 }, some err)
  | Option.none => ({ servers := servers, setCalls := s.setCalls + 1 }, Option.none)

/-- The inner loop of `AddPeers`: is there a `check` in `existing` with
`check.Address == peer.Address` (the `continue outer` case)? -/
def addressKnown (peer : NodeInfo) : List NodeInfo → Bool
  | [] => false
  | check :: rest => if check.Address = peer.Address then true else addressKnown peer rest

/-- The outer loop of `AddPeers`: `peers` after ranging over `additionalPeers`. -/
def collectPeers (existing : List NodeInfo) : List NodeInfo → List NodeInfo → List NodeInfo
  | peers, [] => peers
  | peers, peer :: rest =>
      if addressKnown peer existing then collectPeers existing peers rest
      else collectPeers existing (peers ++ [peer]) rest

/-- `AddPeers(ctx, nodeStore, additionalPeers...)`: the store afterwards and the returned error. -/
def AddPeers (f : StoreFaults) (nodeStore : NodeStore) (additionalPeers : List NodeInfo) :
    NodeStore × Option Error :=
  match nodeStore.Get f with
  | .error err => (nodeStore, some err)
  | .ok existing =>
      let peers := collectPeers existing [] additionalPeers
      if peers.length > 0 then
        nodeStore.Set f (existing ++ peers)
      else
        (nodeStore, Option.none)

/-- What `AddPeers` appends: the candidates whose address no existing entry has. -/
def survivors (existing additional : List NodeInfo) : List NodeInfo :=
  additional.filter (fun p => decide (p.Address ∉ existing.map NodeInfo.Address))

/-- The store invariant of the specification: no two entries share the same address. -/
def distinctAddresses (servers : List NodeInfo) : Prop :=
  (servers.map NodeInfo.Address).Nodup

instance (servers : List NodeInfo) : Decidable (distinctAddresses servers) := by
  unfold distinctAddresses; infer_instance

/-! ## Go standard library: `strings`, `strconv`, `net/url` -/

/-- The byte `&`. -/
abbrev chAmp : Fin 256 := 38
/-- The byte `=`. -/
abbrev chEq : Fin 256 := 61
/-- The byte `;`. -/
abbrev chSemi : Fin 256 := 59
/-- The byte `%`. -/
abbrev chPercent : Fin 256 := 37
/-- The byte `+`. -/
abbrev chPlus : Fin 256 := 43
/-- The space byte. -/
abbrev chSpace : Fin 256 := 32
/-- The byte `?`. -/
abbrev chQuestion : Fin 256 := 63
/-- The byte `:`. -/
abbrev chColon : Fin 256 := 58

/-- `strings.Cut(s, sep)` for a one-byte separator: the text before and after the first
`sep`, or `none` when `s` has no `sep`. -/
def cut (sep : Fin 256) : Str → Option (Str × Str)
  | [] => none
  | c :: s =>
      if c = sep then some ([], s)
      else match cut sep s with
        | none => none
        | some (before, after) => some (c :: before, after)

/-- `strings.SplitN(s, sep, n)` for a one-byte separator and `n ≥ 0`: at most `n` pieces,
the last one being the unsplit remainder. -/
def splitN (sep : Fin 256) : Nat → Str → List Str
  | 0, _ => []
  | 1, s => [s]
  | n + 2, s =>
      match cut sep s with
      | none => [s]
      | some (before, after) => before :: splitN sep (n + 1) after

/-- `strings.Split(s, sep)` for a one-byte separator. -/
def split (sep : Fin 256) : Str → List Str
  | [] => [[]]
  | c :: s =>
      if c = sep then [] :: split sep s
      else match split sep s with
        | [] => [[c]]
        | piece :: pieces => (c :: piece) :: pieces

/-- Is `c` one of `0`..`9`? -/
def isDigit (c : Fin 256) : Bool := 48 ≤ c.val && c.val ≤ 57

/-- The range of `uint64`. -/
def maxUint64 : Nat := 2 ^ 64 - 1

/-- The digit loop of `strconv.ParseUint(s, 10, 64)`: `n` is the value read so far, in
`uint64` arithmetic; `s0` is the whole input, quoted in the error. -/
def parseUintLoop (s0 : Str) : Nat → Str → Except Error Nat
  | n, [] => .ok n
  | n, c :: s =>
      if isDigit c then
        let d := c.val - 48
        if n ≥ maxUint64 / 10 + 1 then .error (.numError s0 true)
        else
          let n10 := (n * 10) % 2 ^ 64
          let n1 := (n10 + d) % 2 ^ 64
          if n1 < n10 ∨ n1 > maxUint64 then .error (.numError s0 true)
          else parseUintLoop s0 n1 s
      else .error (.numError s0 false)

/-- `strconv.ParseUint(s, 10, 64)`. -/
def ParseUint (s : Str) : Except Error Nat :=
  if s = [] then .error (.numError s false) else parseUintLoop s 0 s

/-- `ishex` of `net/url`. -/
def ishex (c : Fin 256) : Bool :=
  (48 ≤ c.val && c.val ≤ 57) || (97 ≤ c.val && c.val ≤ 102) || (65 ≤ c.val && c.val ≤ 70)

/-- `unhex` of `net/url`. -/
def unhex (c : Fin 256) : Nat :=
  if 48 ≤ c.val ∧ c.val ≤ 57 then c.val - 48
  else if 97 ≤ c.val ∧ c.val ≤ 102 then c.val - 97 + 10
  else if 65 ≤ c.val ∧ c.val ≤ 70 then c.val - 65 + 10
  else 0

/-- `upperhex[i]` of `net/url`, the table `"0123456789ABCDEF"`. -/
def upperhex (i : Nat) : Fin 256 :=
  if i < 10 then Fin.ofNat (48 + i) else Fin.ofNat (65 + (i - 10))

/-- `url.QueryUnescape(s)`: `%XX` becomes the byte `XX`, `+` becomes a space; a `%` not
followed by two hex digits is an `EscapeError` quoting at most three bytes from there. -/
def QueryUnescape : Str → Except Error Str
  | [] => .ok []
  | c :: s =>
      if c = chPercent then
        match s with
        | h1 :: h2 :: rest =>
            if ishex h1 && ishex h2 then
              match QueryUnescape rest with
              | .ok t => .ok (Fin.ofNat (unhex h1 * 16 + unhex h2) :: t)
              | .error e => .error e
            else .error (.escape ((c :: s).take 3))
        | _ => .error (.escape ((c :: s).take 3))
      else
        match QueryUnescape s with
        | .ok t => .ok ((if c = chPlus then chSpace else c) :: t)
        | .error e => .error e

/-- `shouldEscape(c, encodeQueryComponent)`: everything but letters, digits and `-_.~`. -/
def shouldEscape (c : Fin 256) : Bool :=
  !((97 ≤ c.val && c.val ≤ 122) || (65 ≤ c.val && c.val ≤ 90) || (48 ≤ c.val && c.val ≤ 57)
    || c.val = 45 || c.val = 95 || c.val = 46 || c.val = 126)

/-- `url.QueryEscape(s)`. -/
def QueryEscape : Str → Str
  | [] => []
  | c :: s =>
      if c = chSpace then chPlus :: QueryEscape s
      else if shouldEscape c then
        chPercent :: upperhex (c.val / 16) :: upperhex (c.val % 16) :: QueryEscape s
      else c :: QueryEscape s

/-- `url.Values`, a `map[string][]string`: an association list with one entry per key. -/
abbrev Values := List (Str × List Str)

/-- `m[key]`: the values of `key`, empty when the key is absent. -/
def Values.get (m : Values) (key : Str) : List Str :=
  match m with
  | [] => []
  | (k, vs) :: rest => if k = key then vs else Values.get rest key

/-- `m[key] = append(m[key], value)`. -/
def Values.add (m : Values) (key value : Str) : Values :=
  match m with
  | [] => [(key, [value])]
  | (k, vs) :: rest =>
      if k = key then (k, vs ++ [value]) :: rest else (k, vs) :: Values.add rest key value

/-- `delete(m, key)`. -/
def Values.delete (m : Values) (key : Str) : Values :=
  m.filter (fun e => decide (e.1 ≠ key))

/-- The body of the loop of `url.parseQuery` (Go 1.17 and later) on one `&`-separated piece
`key`, with the map and the error so far. -/
def parseQueryStep (st : Values × Option Error) (key : Str) : Values × Option Error :=
  if chSemi ∈ key then
    (st.1, some (.text (ascii "invalid semicolon separator in query")))
  else if key = [] then st
  else
    let kv : Str × Str := match cut chEq key with
      | some (k, v) => (k, v)
      | none => (key, [])
    match QueryUnescape kv.1 with
    | .error err1 => (st.1, if st.2 = none then some err1 else st.2)
    | .ok k =>
        match QueryUnescape kv.2 with
        | .error err1 => (st.1, if st.2 = none then some err1 else st.2)
        | .ok v => (st.1.add k v, st.2)

/-- `url.ParseQuery(query)`: the map and the error. The loop
`for query != "" { key, query, _ = strings.Cut(query, "&"); ... }` visits the pieces of
`strings.Split(query, "&")` in order (it never sees a final empty piece, which the body
would skip anyway). -/
def ParseQuery (query : Str) : Values × Option Error :=
  (split chAmp query).foldl parseQueryStep ([], none)

/-- Bytewise `a ≤ b` on strings, the order of `sort.Strings`. -/
def strLe : Str → Str → Bool
  | [], _ => true
  | _ :: _, [] => false
  | a :: as, b :: bs => if a.val < b.val then true else if b.val < a.val then false else strLe as bs

/-- The inner loop of `Values.Encode` for one key: `buf` after writing every value. -/
def encodeKey (keyEscaped : Str) : Str → List Str → Str
  | buf, [] => buf
  | buf, v :: vs =>
      let buf1 := if buf.length > 0 then buf ++ [chAmp] else buf
      encodeKey keyEscaped (buf1 ++ keyEscaped ++ [chEq] ++ QueryEscape v) vs

/-- The outer loop of `Values.Encode` over the sorted keys. -/
def encodeLoop : Str → Values → Str
  | buf, [] => buf
  | buf, (k, vs) :: rest => encodeLoop (encodeKey (QueryEscape k) buf vs) rest

/-- `v.Encode()`: the pairs in `key=value` form, escaped, joined by `&`, sorted by key. -/
def Values.Encode (v : Values) : Str :=
  if v.length = 0 then []
  else encodeLoop [] (v.insertionSort (fun a b => strLe a.1 b.1 = true))

/-- The keys of a map. -/
def Values.keys (m : Values) : List Str := m.map Prod.fst

/-- A well-formed map: one entry per key, and no key with an empty list of values (an
absent key has none). -/
def Values.WF (m : Values) : Prop := m.keys.Nodup ∧ ∀ e ∈ m, e.2 ≠ []

/-- The key/value pairs of a map, entry by entry. -/
def Values.pairs : Values → List (Str × Str)
  | [] => []
  | (k, vs) :: rest => vs.map (fun v => (k, v)) ++ Values.pairs rest

/-- The text `key=value` of a pair, escaped. -/
def pairText (p : Str × Str) : Str := QueryEscape p.1 ++ chEq :: QueryEscape p.2

/-- What `Values.Encode` does to its buffer for each of the texts `ps`. -/
def writeAll (buf : Str) (ps : List Str) : Str :=
  ps.foldl (fun b p => (if b.length > 0 then b ++ [chAmp] else b) ++ p) buf

/-- Every text preceded by `&`. -/
def tailJoin : List Str → Str
  | [] => []
  | p :: ps => chAmp :: (p ++ tailJoin ps)

/-! ## `parseOpts` -/

/-- The `opts` struct. -/
structure opts where
  peers : List NodeInfo
  peerFile : Str
  dsn : Str
  driverName : Str
  deriving DecidableEq, Repr

/-- The loop `for _, v := range vs` of the `peer` case. -/
def parsePeers : List Str → opts → opts × Option Error
  | [], result => (result, none)
  | v :: vs, result =>
      let parts := splitN chColon 3 v
      if parts.length ≠ 3 then
        (result, some (.text (ascii "must be ID:IP:PORT format got: " ++ v)))
      else
        match ParseUint (parts.getD 0 []) with
        | .error err =>
            (result, some (.wrap err (ascii "failed to parse " ++ parts.getD 0 [])))
        | .ok id =>
            parsePeers vs { result with
              peers := result.peers ++
                [{ ID := id, Address := parts.getD 1 [] ++ ascii ":" ++ parts.getD 2 [] }] }

/-- The loop `for k, vs := range values` of `parseOpts`, visiting `entries`; the state is
`result` and the map `values`, from which the recognised keys are deleted. -/
def rangeValues : List (Str × List Str) → opts → Values → (opts × Values) × Option Error
  | [], result, values => ((result, values), none)
  | (k, vs) :: rest, result, values =>
      if vs.length = 0 then rangeValues rest result values
      else if k = ascii "peer" then
        match parsePeers vs result with
        | (result1, some err) => ((result1, values), some err)
        | (result1, none) => rangeValues rest result1 (values.delete k)
      else if k = ascii "peer-file" then
        rangeValues rest { result with peerFile := vs.getD 0 [] } (values.delete k)
      else rangeValues rest result values

/-- `parseOpts(dsn)` when the map is ranged over in the order `order values`: the returned
struct and the returned error. -/
def parseOptsIn (order : Values → List (Str × List Str)) (dsn : Str) : opts × Option Error :=
  let result : opts := { peers := [], peerFile := [], dsn := dsn, driverName := [] }
  let parts := splitN chQuestion 2 dsn
  if parts.length = 1 then (result, none)
  else
    match ParseQuery (parts.getD 1 []) with
    | (_, some err) => (result, some err)
    | (values, none) =>
        match rangeValues (order values) result values with
        | ((result1, _), some err) => (result1, some err)
        | ((result1, values1), none) =>
            if values1.length = 0 then ({ result1 with dsn := parts.getD 0 [] }, none)
            else
              ({ result1 with dsn := parts.getD 0 [] ++ ascii "?" ++ values1.Encode }, none)

/-- `parseOpts(dsn)`, ranging over the map in the order the keys first appear in the query.
Go leaves the order of a map range open; `parseOptsIn_order` shows that it changes neither
the error nor an accepted result. -/
def parseOpts (dsn : Str) : opts × Option Error := parseOptsIn id dsn

/-! ### The vocabulary of the claims about `parseOpts` -/

/-- The query of a connection string: the text after its first `?`, empty when it has none. -/
def queryOf (dsn : Str) : Str :=
  match cut chQuestion dsn with
  | some (_, query) => query
  | none => []

/-- The base of a connection string: the text before its first `?`. -/
def baseOf (dsn : Str) : Str :=
  match cut chQuestion dsn with
  | some (base, _) => base
  | none => dsn

/-- The number a string of decimal digits denotes. -/
def decimalValue (s : Str) : Nat := s.foldl (fun n c => 10 * n + (c.val - 48)) 0

/-- The first segment of a peer value: the text before its first colon. -/
def idText (v : Str) : Str :=
  match cut chColon v with
  | some (before, _) => before
  | none => v

/-- The text after the first colon of a peer value. -/
def addressText (v : Str) : Str :=
  match cut chColon v with
  | some (_, after) => after
  | none => []

/-- A peer value of the form `ID:IP:PORT` with `ID` a decimal unsigned 64-bit integer: at
least two colons, and a first segment of one or more digits that denotes a number below
`2 ^ 64`. -/
def PeerForm (v : Str) : Prop :=
  2 ≤ v.count chColon ∧ idText v ≠ [] ∧ (∀ c ∈ idText v, isDigit c = true)
    ∧ decimalValue (idText v) < 2 ^ 64

instance (v : Str) : Decidable (PeerForm v) := by
  unfold PeerForm; infer_instance

/-- The node descriptor a well-formed peer value stands for. -/
def peerOf (v : Str) : NodeInfo :=
  { ID := decimalValue (idText v), Address := addressText v }

/-- The key `peer`. -/
def peerKey : Str := ascii "peer"

/-- The key `peer-file`. -/
def peerFileKey : Str := ascii "peer-file"

/-! ## `database/sql` and `migrate` -/

/-- One row of the `kine` table, as `Scan` stores it in the nine destinations
`int, string, int, int, int, int, int, []byte, []byte`. -/
structure Row where
  id : Int
  name : Str
  created : Int
  deleted : Int
  create_revision : Int
  prev_revision : Int
  lease : Int
  value : Str
  old_value : Str
  deriving DecidableEq, Repr

/-- A database behind a `*sql.DB`: the committed rows of its `kine` table, in the order a
plain `SELECT` yields them, the number of `INSERT` statements sent to it so far, and the
number of transactions committed on it so far. -/
structure DB where
  kine : List Row
  execs : Nat
  commits : Nat
  deriving DecidableEq, Repr

/-- A `*sql.Tx`: the rows written through the transaction, which reach the table when it
commits. -/
structure Tx where
  pending : List Row
  deriving DecidableEq, Repr

/-- The failures met during one call of `migrate`; `none` stands for a `nil` error. Loop
steps are numbered from 0. -/
structure MigrateFaults where
  /-- of `row.Scan(&count)` on `SELECT COUNT(*) FROM kine` -/
  countErr : Option Error
  /-- of `sql.Open("sqlite3", "./db/state.db")` -/
  openErr : Option Error
  /-- of `oldDB.QueryContext` -/
  queryErr : Option Error
  /-- of `newDB.BeginTx` -/
  beginErr : Option Error
  /-- the error that makes the `i`-th `oldData.Next()` stop the iteration, reported by
  `oldData.Err()` -/
  nextErr : Nat → Option Error
  /-- of the `i`-th `oldData.Scan` -/
  scanErr : Nat → Option Error
  /-- of the `i`-th `newDB.ExecContext` -/
  execErr : Nat → Option Error
  /-- of `tx.Commit()` -/
  commitErr : Option Error

/-- No failure at all. -/
def MigrateFaults.none : MigrateFaults :=
  { countErr := Option.none, openErr := Option.none, queryErr := Option.none,
    beginErr := Option.none, nextErr := fun _ => Option.none, scanErr := fun _ => Option.none,
    execErr := fun _ => Option.none, commitErr := Option.none }

/-- `db.QueryRowContext(ctx, "SELECT COUNT(*) FROM kine")` followed by `row.Scan(&count)`. -/
def DB.countRows (db : DB) (fault : Option Error) : Except Error Int :=
  match fault with
  | some err => .error err
  | none => .ok db.kine.length

/-- `db.ExecContext(ctx, "INSERT INTO kine(...) values(...)", row...)`: a statement sent to
the `*sql.DB` runs on a connection of the pool, outside every open transaction, and is
committed when it returns. -/
def DB.ExecContext (db : DB) (fault : Option Error) (row : Row) : DB × Option Error :=
  match fault with
  | some err => ({ db with execs := db.execs + 1 }, some err)
  | none => ({ db with kine := db.kine ++ [row], execs := db.execs + 1 }, none)

/-- `tx.ExecContext` of the same `INSERT`: the row stays with the transaction. -/
def Tx.ExecContext (tx : Tx) (fault : Option Error) (row : Row) : Tx × Option Error :=
  match fault with
  | some err => (tx, some err)
  | none => ({ pending := tx.pending ++ [row] }, none)

/-- `tx.Commit()`: the rows written through the transaction reach the table; a failed
commit drops them. -/
def Tx.Commit (tx : Tx) (fault : Option Error) (db : DB) : DB × Option Error :=
  match fault with
  | some err => (db, some err)
  | none => ({ db with kine := db.kine ++ tx.pending, commits := db.commits + 1 }, none)

/-- `tx.Rollback()`: the rows written through the transaction are dropped. -/
def Tx.Rollback (_tx : Tx) (db : DB) : DB := db

/-- The loop `for oldData.Next() { ... }` of `migrate` and the `oldData.Err()` check after
it, from step `i` on: the destination afterwards and the value returned (before the
deferred function runs). -/
def copyRows (f : MigrateFaults) : Nat → DB → List Row → DB × Option Error
  | i, newDB, [] => (newDB, f.nextErr i)
  | i, newDB, row :: rest =>
      match f.nextErr i with
      | some err => (newDB, some err)
      | none =>
          match f.scanErr i with
          | some err => (newDB, some err)
          | none =>
              match newDB.ExecContext (f.execErr i) row with
              | (db1, some err) => (db1, some err)
              | (db1, none) => copyRows f (i + 1) db1 rest

/-- `migrate(ctx, newDB)`: the destination afterwards and the returned error. `legacy` is
the `kine` table of `./db/state.db`, `none` when `os.Stat` fails. -/
def migrate (f : MigrateFaults) (legacy : Option (List Row)) (newDB : DB) :
    DB × Option Error :=
  match newDB.countRows f.countErr with
  | .error err => (newDB, some err)
  | .ok count =>
      if count > 0 then (newDB, none)
      else
        match legacy with
        | none => (newDB, none)
        | some oldRows =>
            match f.openErr with
            | some _ => (newDB, none)
            | none =>
                match f.queryErr with
                | some _ => (newDB, none)
                | none =>
                    match f.beginErr with
                    | some err => (newDB, some err)
                    | none =>
                        let tx : Tx := { pending := [] }
                        match copyRows f 0 newDB oldRows with
                        | (db1, none) => tx.Commit f.commitErr db1
                        | (db1, some exitErr) => (tx.Rollback db1, some exitErr)

/-! ## `getDialer` and `New` -/

/-- The fields of `tls.Config` that `getDialer` reads. -/
structure TLSConfig where
  CertFile : Str
  KeyFile : Str
  deriving DecidableEq, Repr

/-- What the certificate files hold, as far as `getDialer` can tell. -/
structure TLSFiles where
  /-- `crypto_tls.LoadX509KeyPair(certFile, keyFile)` succeeds -/
  LoadX509KeyPair : Str → Str → Bool
  /-- `ioutil.ReadFile(path)`: the content, `none` on error -/
  ReadFile : Str → Option Str
  /-- `pool.AppendCertsFromPEM(data)` -/
  AppendCertsFromPEM : Str → Bool

/-- The dial function wrapped in the returned `driver.Option`. -/
inductive DialFunc where
  /-- `client.DefaultDialFunc` -/
  | default
  /-- `client.DialFuncWithTLS(dial, app.SimpleDialTLSConfig(cert, pool))` -/
  | withTLS (certFile keyFile : Str) (pool : Str)
  deriving DecidableEq, Repr

/-- `getDialer(tlsInfo)`. -/
def getDialer (fs : TLSFiles) (tlsInfo : TLSConfig) : Except Error DialFunc :=
  if (tlsInfo.CertFile ≠ [] ∧ tlsInfo.KeyFile = []) ∨
      (tlsInfo.KeyFile ≠ [] ∧ tlsInfo.CertFile = []) then
    .error (.text (ascii "both TLS certificate and key must be given"))
  else if tlsInfo.CertFile ≠ [] then
    if fs.LoadX509KeyPair tlsInfo.CertFile tlsInfo.KeyFile then
      match fs.ReadFile tlsInfo.CertFile with
      | none => .error (.text (ascii "could not read certificate"))
      | some data =>
          if fs.AppendCertsFromPEM data then
            .ok (.withTLS tlsInfo.CertFile tlsInfo.KeyFile data)
          else .error (.text (ascii "bad certificate"))
    else .error (.text (ascii "bad certificate pair"))
  else .ok .default

/-- Does `s` start with `p`? -/
def startsWith : Str → Str → Bool
  | _, [] => true
  | [], _ :: _ => false
  | c :: s, d :: p => c = d && startsWith s p

/-- `strings.Contains(s, sub)`. -/
def contains : Str → Str → Bool
  | [], sub => startsWith [] sub
  | c :: s, sub => startsWith (c :: s) sub || contains s sub

/-- `driver.ErrBusy`. -/
def ErrBusy : Nat := 5

/-- `server.ErrKeyExists`. -/
def ErrKeyExists : Error := .text (ascii "key exists")

/-- The `generic.Retry` that `New` installs. -/
def retryPolicy (err : Error) : Bool :=
  match err with
  | .driver code _ => code = ErrBusy
  | _ => false

/-- The `generic.TranslateErr` that `New` installs. -/
def translateErr (err : Error) : Error :=
  if contains err.message (ascii "UNIQUE constraint") then ErrKeyExists else err

/-- The backend that `New` returns: the store opened by `sqlite.NewVariant` under
`driverName` and `dsn`, with the fields `New` sets on its `generic.Generic`. -/
structure Backend where
  driverName : Str
  dsn : Str
  nodeStore : NodeStore
  DB : DB
  LockWrites : Bool
  Retry : Error → Bool
  TranslateErr : Error → Error

/-- The collaborators of `New`. -/
structure NewEnv where
  /-- `client.DefaultNodeStore(path)` -/
  DefaultNodeStore : Str → Except Error NodeStore
  /-- the failures of the membership store during `AddPeers` -/
  storeFaults : StoreFaults
  /-- the certificate files -/
  tlsFiles : TLSFiles
  /-- the error of `driver.New`, if any -/
  driverNewErr : Option Error
  /-- the names registered with `database/sql` before the call -/
  registered : List Str
  /-- `sqlite.NewVariant(ctx, driverName, dsn, connPoolConfig)`: the opened `generic.DB` -/
  NewVariant : Str → Str → Except Error DB
  /-- the failures met by `migrate` -/
  migrateFaults : MigrateFaults
  /-- the legacy table at `./db/state.db`, if the file is there -/
  legacy : Option (List Row)

/-- How a call of `New` ends. -/
inductive NewResult where
  /-- `sql.Register` panics -/
  | panicked (msg : Str)
  /-- `return backend, err`, with the driver names registered afterwards -/
  | returned (backend : Option Backend) (err : Option Error) (registered : List Str)

/-- The error a call of `New` returns, `none` for `nil` and for a panic. -/
def NewResult.err : NewResult → Option Error
  | .panicked _ => none
  | .returned _ err _ => err

/-- Does the call of `New` return a backend? -/
def NewResult.hasBackend : NewResult → Bool
  | .panicked _ => false
  | .returned backend _ _ => backend.isSome

/-- The membership store `New` starts from: `client.DefaultNodeStore(opts.peerFile)` when a
peer file is given, else `client.NewInmemNodeStore()`. -/
def openNodeStore (env : NewEnv) (o : opts) : Except Error NodeStore :=
  if o.peerFile ≠ [] then env.DefaultNodeStore o.peerFile
  else .ok { servers := [], setCalls := 0 }

/-- `New(ctx, datasourceName, tlsInfo, connPoolConfig)`. -/
def New (env : NewEnv) (datasourceName : Str) (tlsInfo : TLSConfig) : NewResult :=
  match parseOpts datasourceName with
  | (_, some err) => .returned none (some err) env.registered
  | (opts0, none) =>
      match openNodeStore env opts0 with
      | .error err => .returned none (some (.wrap err (ascii "opening peerfile"))) env.registered
      | .ok nodeStore0 =>
          match AddPeers env.storeFaults nodeStore0 opts0.peers with
          | (_, some err) => .returned none (some (.wrap err (ascii "add peers"))) env.registered
          | (nodeStore, none) =>
              let afterDriver : Except NewResult (Str × List Str) :=
                if opts0.driverName = [] then
                  match getDialer env.tlsFiles tlsInfo with
                  | .error err => .error (.returned none (some err) env.registered)
                  | .ok _dial =>
                      match env.driverNewErr with
                      | some err =>
                          .error (.returned none (some (.wrap err (ascii "new dqlite driver")))
                            env.registered)
                      | none =>
                          if ascii "dqlite" ∈ env.registered then
                            .error (.panicked (ascii "sql: Register called twice for driver dqlite"))
                          else .ok (ascii "dqlite", ascii "dqlite" :: env.registered)
                else .ok (opts0.driverName, env.registered)
              match afterDriver with
              | .error r => r
              | .ok (driverName, registered) =>
                  match env.NewVariant driverName opts0.dsn with
                  | .error err =>
                      .returned none (some (.wrap err (ascii "sqlite client"))) registered
                  | .ok db0 =>
                      match migrate env.migrateFaults env.legacy db0 with
                      | (_, some err) =>
                          .returned none
                            (some (.wrap err (ascii "failed to migrate DB from sqlite")))
                            registered
                      | (db, none) =>
                          .returned
                            (some { driverName := driverName, dsn := opts0.dsn,
                                    nodeStore := nodeStore, DB := db, LockWrites := true,
                                    Retry := retryPolicy, TranslateErr := translateErr })
                            none registered

/-! ## Sample inputs -/

/-- Collaborators that never fail: an empty peer file, readable certificates, a fresh driver
registry, an empty destination and no legacy file. -/
def quietEnv : NewEnv :=
  { DefaultNodeStore := fun _ => .ok { servers := [], setCalls := 0 }
    storeFaults := StoreFaults.none
    tlsFiles := { LoadX509KeyPair := fun _ _ => true, ReadFile := fun _ => some [],
                  AppendCertsFromPEM := fun _ => true }
    driverNewErr := none
    registered := []
    NewVariant := fun _ _ => .ok { kine := [], execs := 0, commits := 0 }
    migrateFaults := MigrateFaults.none
    legacy := none }

/-- A sample row of the legacy table. -/
def rowA : Row :=
  { id := 1, name := ascii "/registry/a", created := 1, deleted := 0, create_revision := 1,
    prev_revision := 0, lease := 0, value := ascii "v1", old_value := [] }

/-- A second sample row of the legacy table. -/
def rowB : Row :=
  { id := 2, name := ascii "/registry/b", created := 1, deleted := 0, create_revision := 2,
    prev_revision := 0, lease := 0, value := ascii "v2", old_value := [] }

/-- A failure of the database. -/
def busy : Error := .driver 5 (ascii "database is locked")

/-! ### The closed form of `parseOpts` -/

/-- The error `parseOpts` returns for the peer value `v`: the text naming `v` when `v` has
fewer than two colons, else the wrapped `ParseUint` error naming the first segment. -/
def IsPeerError (v : Str) (e : Error) : Prop :=
  (v.count chColon < 2 ∧ e = .text (ascii "must be ID:IP:PORT format got: " ++ v))
    ∨ (2 ≤ v.count chColon
        ∧ ∃ range, e = .wrap (.numError (idText v) range) (ascii "failed to parse " ++ idText v))

/-- The struct with no peer, on which the scan of the peer values is measured. -/
def blankOpts : opts := { peers := [], peerFile := [], dsn := [], driverName := [] }

/-- What the range over the map leaves of `values`, when the entries ranged over give
`peer` the values `pv` and `peer-file` the values `pf`. -/
def remaining (pv pf : List Str) (values : Values) : Values :=
  values.filter
    (fun e => !(decide (e.1 = peerKey ∧ pv ≠ []) || decide (e.1 = peerFileKey ∧ pf ≠ [])))

/-- The values the query of `dsn` gives to the key `peer`, in the order they appear. -/
def peerValues (dsn : Str) : List Str := (ParseQuery (queryOf dsn)).1.get peerKey

/-- The values the query of `dsn` gives to the key `peer-file`. -/
def peerFileValues (dsn : Str) : List Str := (ParseQuery (queryOf dsn)).1.get peerFileKey

/-- The entries of the query of `dsn` that `parseOpts` leaves in the map. -/
def restOf (dsn : Str) : Values :=
  remaining (peerValues dsn) (peerFileValues dsn) (ParseQuery (queryOf dsn)).1

/-- The struct an accepted `dsn` is parsed to. -/
def acceptedOpts (dsn : Str) : opts :=
  { peers := (parsePeers (peerValues dsn) blankOpts).1.peers
    peerFile := if peerFileValues dsn = [] then [] else (peerFileValues dsn).getD 0 []
    dsn := if (restOf dsn).length = 0 then baseOf dsn
      else baseOf dsn ++ ascii "?" ++ (restOf dsn).Encode
    driverName := [] }

/-! ## Theorems -/

theorem addressKnown_iff (peer : NodeInfo) (existing : List NodeInfo) :
    addressKnown peer existing = true ↔ peer.Address ∈ existing.map NodeInfo.Address := by
  induction existing with
  | nil => simp [addressKnown]
  | cons check rest ih =>
      by_cases h : check.Address = peer.Address
      · simp [addressKnown, h]
      · have h' : ¬ peer.Address = check.Address := fun e => h e.symm
        simp [addressKnown, h, h', ih]

theorem collectPeers_eq (existing : List NodeInfo) (peers additional : List NodeInfo) :
    collectPeers existing peers additional
      = peers ++ additional.filter (fun p => !addressKnown p existing) := by
  induction additional generalizing peers with
  | nil => simp [collectPeers]
  | cons peer rest ih =>
      by_cases h : addressKnown peer existing = true
      · simp [collectPeers, h, ih]
      · simp [collectPeers, h, ih]

theorem collectPeers_survivors (existing additional : List NodeInfo) :
    collectPeers existing [] additional = survivors existing additional := by
  rw [collectPeers_eq, survivors, List.nil_append]
  apply List.filter_congr
  intro p _
  by_cases h : p.Address ∈ existing.map NodeInfo.Address
  · simp [(addressKnown_iff p existing).2 h, h]
  · have : addressKnown p existing = false := by
      cases hk : addressKnown p existing with
      | false => rfl
      | true => exact absurd ((addressKnown_iff p existing).1 hk) h
    simp [this, h]

theorem AddPeers_ok (f : StoreFaults) (s : NodeStore) (additional : List NodeInfo)
    (h : (AddPeers f s additional).2 = Option.none) :
    (AddPeers f s additional).1 =
      if survivors s.servers additional = [] then s
      else { servers := s.servers ++ survivors s.servers additional,
             setCalls := s.setCalls + 1 } := by
  unfold AddPeers NodeStore.Get at *
  cases hg : f.getErr with
  | some e => simp [hg] at h
  | none =>
      simp only [hg, collectPeers_survivors] at h ⊢
      by_cases hs : survivors s.servers additional = []
      · simp [hs]
      · have hl : (survivors s.servers additional).length > 0 :=
          List.length_pos.2 hs
        simp only [hl, hs, if_true, if_false] at h ⊢
        unfold NodeStore.Set at *
        cases hse : f.setErr with
        | some e => simp [hse] at h
        | none => simp

theorem survivors_of_appended (existing additional : List NodeInfo) :
    survivors (existing ++ survivors existing additional) additional = [] := by
  unfold survivors
  rw [List.filter_eq_nil_iff]
  intro p hp
  simp only [decide_eq_true_eq, not_not, List.map_append, List.mem_append]
  by_cases h : p.Address ∈ existing.map NodeInfo.Address
  · exact Or.inl h
  · refine Or.inr (List.mem_map.2 ⟨p, ?_, rfl⟩)
    exact List.mem_filter.2 ⟨hp, by simpa using h⟩

/-- C8: after a successful `AddPeers` the store holds the existing entries first, unmodified
and in order, followed by exactly the candidates whose address no existing entry has, in
candidate order; when there is such a candidate this is one `Set` call, and when there is
none the store is not written at all. -/
theorem AddPeers_appends_survivors (f : StoreFaults) (s : NodeStore)
    (additional : List NodeInfo) (h : (AddPeers f s additional).2 = Option.none) :
    (AddPeers f s additional).1.servers
        = s.servers ++
            additional.filter (fun p => decide (p.Address ∉ s.servers.map NodeInfo.Address))
      ∧ (additional.filter
            (fun p => decide (p.Address ∉ s.servers.map NodeInfo.Address)) = [] →
          (AddPeers f s additional).1 = s)
      ∧ (additional.filter
            (fun p => decide (p.Address ∉ s.servers.map NodeInfo.Address)) ≠ [] →
          (AddPeers f s additional).1.setCalls = s.setCalls + 1) := by
  have hok := AddPeers_ok f s additional h
  unfold survivors at hok
  rw [hok]
  refine ⟨?_, ?_, ?_⟩
  · split
    · next he => rw [he, List.append_nil]
    · rfl
  · intro he; rw [if_pos he]
  · intro hne; rw [if_neg hne]

theorem AddPeers_appends_survivors_witness :
    (AddPeers StoreFaults.none ⟨[⟨1, ascii "10.0.0.1:9000"⟩], 0⟩
        [⟨7, ascii "10.0.0.1:9000"⟩, ⟨2, ascii "10.0.0.2:9000"⟩]).2 = Option.none
      ∧ (AddPeers StoreFaults.none ⟨[⟨1, ascii "10.0.0.1:9000"⟩], 0⟩
        [⟨7, ascii "10.0.0.1:9000"⟩, ⟨2, ascii "10.0.0.2:9000"⟩]).1.servers
          = [⟨1, ascii "10.0.0.1:9000"⟩, ⟨2, ascii "10.0.0.2:9000"⟩] :=
  ⟨by decide,
   (AddPeers_appends_survivors StoreFaults.none ⟨[⟨1, ascii "10.0.0.1:9000"⟩], 0⟩
      [⟨7, ascii "10.0.0.1:9000"⟩, ⟨2, ascii "10.0.0.2:9000"⟩] (by decide)).1.trans
      (by decide)⟩

/-- C7: `AddPeers` is idempotent. After a successful call, a second call with the same
candidates leaves the store exactly as it was (same entries, no further `Set` call),
whatever the store answers during the second call, and returns no error unless the
second `Get` itself fails. -/
theorem AddPeers_idempotent (f f2 : StoreFaults) (s : NodeStore)
    (additional : List NodeInfo) (h : (AddPeers f s additional).2 = Option.none) :
    (AddPeers f2 (AddPeers f s additional).1 additional).1 = (AddPeers f s additional).1
      ∧ (AddPeers f2 (AddPeers f s additional).1 additional).2 = f2.getErr := by
  have hok := AddPeers_ok f s additional h
  have key : survivors (AddPeers f s additional).1.servers additional = [] := by
    rw [hok]
    by_cases hs : survivors s.servers additional = []
    · simp [hs]
    · simp only [hs, if_false]
      exact survivors_of_appended s.servers additional
  generalize (AddPeers f s additional).1 = s1 at key ⊢
  unfold AddPeers NodeStore.Get
  cases hg : f2.getErr with
  | some e => simp
  | none => simp [collectPeers_survivors, key]

theorem AddPeers_idempotent_witness :
    (AddPeers StoreFaults.none ⟨[], 0⟩ [⟨1, ascii "a:1"⟩, ⟨2, ascii "b:2"⟩]).2 = Option.none
      ∧ (AddPeers StoreFaults.none
          (AddPeers StoreFaults.none ⟨[], 0⟩ [⟨1, ascii "a:1"⟩, ⟨2, ascii "b:2"⟩]).1
          [⟨1, ascii "a:1"⟩, ⟨2, ascii "b:2"⟩]).1
        = ⟨[⟨1, ascii "a:1"⟩, ⟨2, ascii "b:2"⟩], 1⟩ :=
  ⟨by decide,
   (AddPeers_idempotent StoreFaults.none StoreFaults.none ⟨[], 0⟩
      [⟨1, ascii "a:1"⟩, ⟨2, ascii "b:2"⟩] (by decide)).1.trans (by decide)⟩

/-- What does hold of the invariant: it is preserved when the candidates themselves have
pairwise different addresses. -/
theorem AddPeers_preserves_distinct (f : StoreFaults) (s : NodeStore)
    (additional : List NodeInfo) (hs : distinctAddresses s.servers)
    (ha : distinctAddresses additional) :
    distinctAddresses (AddPeers f s additional).1.servers := by
  have hsub : (survivors s.servers additional).map NodeInfo.Address
      |>.Sublist (additional.map NodeInfo.Address) :=
    (List.filter_sublist additional).map NodeInfo.Address
  have hcomb : distinctAddresses (s.servers ++ survivors s.servers additional) := by
    unfold distinctAddresses at *
    rw [List.map_append, List.nodup_append]
    refine ⟨hs, ha.sublist hsub, ?_⟩
    intro a h1 h2
    obtain ⟨p, hp, rfl⟩ := List.mem_map.1 h2
    have := (List.mem_filter.1 hp).2
    simp only [decide_eq_true_eq] at this
    exact this h1
  unfold AddPeers NodeStore.Get
  cases f.getErr with
  | some e => exact hs
  | none =>
      simp only [collectPeers_survivors]
      split
      · unfold NodeStore.Set
        cases f.setErr with
        | some e => exact hs
        | none => exact hcomb
      · exact hs

/-- C9 (failing input): from an empty store, which satisfies the invariant, two candidates
with the same address are both stored: the invariant is broken after a successful call. -/
theorem AddPeers_duplicate_candidates :
    distinctAddresses ([] : List NodeInfo)
      ∧ AddPeers StoreFaults.none ⟨[], 0⟩ [⟨1, ascii "10.0.0.1:9000"⟩, ⟨2, ascii "10.0.0.1:9000"⟩]
          = (⟨[⟨1, ascii "10.0.0.1:9000"⟩, ⟨2, ascii "10.0.0.1:9000"⟩], 1⟩, Option.none)
      ∧ ¬ distinctAddresses
          (AddPeers StoreFaults.none ⟨[], 0⟩
            [⟨1, ascii "10.0.0.1:9000"⟩, ⟨2, ascii "10.0.0.1:9000"⟩]).1.servers := by
  refine ⟨by decide, by decide, by decide⟩

/-! ### `migrate` -/

theorem copyRows_commits (f : MigrateFaults) (rows : List Row) (i : Nat) (db : DB) :
    (copyRows f i db rows).1.commits = db.commits := by
  induction rows generalizing i db with
  | nil => rfl
  | cons row rest ih =>
      unfold copyRows
      split
      · rfl
      · split
        · rfl
        · unfold DB.ExecContext
          cases f.execErr i with
          | some e => rfl
          | none => simp only; rw [ih]

theorem copyRows_ok (f : MigrateFaults) (rows : List Row) (i : Nat) (db db1 : DB)
    (h : copyRows f i db rows = (db1, none)) :
    db1 = { kine := db.kine ++ rows, execs := db.execs + rows.length, commits := db.commits }
      ∧ (∀ j, i ≤ j → j < i + rows.length → f.scanErr j = none ∧ f.execErr j = none) := by
  induction rows generalizing i db with
  | nil =>
      simp only [copyRows, Prod.mk.injEq] at h
      refine ⟨by rw [← h.1]; simp, ?_⟩
      intro j h1 h2
      simp at h2
      omega
  | cons row rest ih =>
      unfold copyRows at h
      cases hn : f.nextErr i with
      | some e => simp [hn] at h
      | none =>
          cases hs : f.scanErr i with
          | some e => simp [hn, hs] at h
          | none =>
              cases he : f.execErr i with
              | some e => simp [hn, hs, he, DB.ExecContext] at h
              | none =>
                  simp only [hn, hs, he, DB.ExecContext] at h
                  obtain ⟨e1, e2⟩ := ih (i + 1) _ h
                  refine ⟨by rw [e1]; simp [Nat.add_assoc, Nat.add_comm 1], ?_⟩
                  intro j h1 h2
                  by_cases hj : j = i
                  · subst hj; exact ⟨hs, he⟩
                  · exact e2 j (by omega) (by simp at h2 ⊢; omega)

theorem copyRows_clean (f : MigrateFaults) (rows : List Row) (i : Nat) (db : DB)
    (hnext : ∀ j, i ≤ j → j ≤ i + rows.length → f.nextErr j = none)
    (hscan : ∀ j, i ≤ j → j < i + rows.length → f.scanErr j = none)
    (hexec : ∀ j, i ≤ j → j < i + rows.length → f.execErr j = none) :
    copyRows f i db rows
      = ({ kine := db.kine ++ rows, execs := db.execs + rows.length, commits := db.commits },
          none) := by
  induction rows generalizing i db with
  | nil =>
      simp [copyRows, hnext i (Nat.le_refl i) (by simp)]
  | cons row rest ih =>
      have h1 := hnext i (Nat.le_refl i) (by simp)
      have h2 := hscan i (Nat.le_refl i) (by simp)
      have h3 := hexec i (Nat.le_refl i) (by simp)
      simp only [copyRows, h1, h2, h3, DB.ExecContext]
      rw [ih (i + 1)]
      · simp [Nat.add_assoc, Nat.add_comm 1]
      · intro j hj hj'
        exact hnext j (by omega) (by simp at hj' ⊢; omega)
      · intro j hj hj'
        exact hscan j (by omega) (by simp at hj' ⊢; omega)
      · intro j hj hj'
        exact hexec j (by omega) (by simp at hj' ⊢; omega)

theorem copyRows_exec_failure (f : MigrateFaults) (rows : List Row) (i k : Nat) (db : DB)
    (err : Error) (hk : k < rows.length)
    (hnext : ∀ j, i ≤ j → j ≤ i + k → f.nextErr j = none)
    (hscan : ∀ j, i ≤ j → j ≤ i + k → f.scanErr j = none)
    (hexec : ∀ j, i ≤ j → j < i + k → f.execErr j = none)
    (hfail : f.execErr (i + k) = some err) :
    copyRows f i db rows
      = ({ kine := db.kine ++ rows.take k, execs := db.execs + k + 1, commits := db.commits },
          some err) := by
  induction k generalizing i db rows with
  | zero =>
      cases rows with
      | nil => simp at hk
      | cons row rest =>
          have h1 := hnext i (Nat.le_refl i) (by simp)
          have h2 := hscan i (Nat.le_refl i) (by simp)
          simp only [Nat.add_zero] at hfail
          simp [copyRows, h1, h2, hfail, DB.ExecContext]
  | succ k ih =>
      cases rows with
      | nil => simp at hk
      | cons row rest =>
          have h1 := hnext i (Nat.le_refl i) (by omega)
          have h2 := hscan i (Nat.le_refl i) (by omega)
          have h3 := hexec i (Nat.le_refl i) (by omega)
          simp only [copyRows, h1, h2, h3, DB.ExecContext]
          rw [ih rest (i + 1)]
          · simp [Nat.add_assoc, Nat.add_comm 1]
          · simpa using hk
          · intro j hj hj'; exact hnext j (by omega) (by omega)
          · intro j hj hj'; exact hscan j (by omega) (by omega)
          · intro j hj hj'; exact hexec j (by omega) (by omega)
          · rw [← hfail]; congr 1; omega

/-- A transaction of the model does roll back: a row written through `tx.ExecContext` never
reaches the table when the transaction is rolled back, and reaches it when it commits. -/
theorem Tx_rollback_drops_writes (tx : Tx) (row : Row) (db : DB) :
    Tx.Rollback (tx.ExecContext none row).1 db = db
      ∧ ((tx.ExecContext none row).1.Commit none db).1.kine = db.kine ++ tx.pending ++ [row] := by
  simp [Tx.Rollback, Tx.ExecContext, Tx.Commit]

/-- What `migrate` does when exactly the `k`-th insert fails on an empty destination: the
error is returned, no transaction is committed, and the `k` rows inserted before it stay in
the destination, because they were sent to the `*sql.DB` and not to the transaction that is
rolled back. -/
theorem migrate_insert_failure (f : MigrateFaults) (oldRows : List Row) (newDB : DB)
    (k : Nat) (err : Error) (hempty : newDB.kine = []) (hk : k < oldRows.length)
    (hcount : f.countErr = none) (hopen : f.openErr = none) (hquery : f.queryErr = none)
    (hbegin : f.beginErr = none)
    (hnext : ∀ j, j ≤ k → f.nextErr j = none)
    (hscan : ∀ j, j ≤ k → f.scanErr j = none)
    (hexec : ∀ j, j < k → f.execErr j = none)
    (hfail : f.execErr k = some err) :
    migrate f (some oldRows) newDB
      = ({ kine := oldRows.take k, execs := newDB.execs + k + 1, commits := newDB.commits },
          some err) := by
  have hc := copyRows_exec_failure f oldRows 0 k newDB err hk
    (fun j _ hj => hnext j (by omega)) (fun j _ hj => hscan j (by omega))
    (fun j _ hj => hexec j (by omega)) (by simpa using hfail)
  simp [migrate, DB.countRows, hcount, hempty, hopen, hquery, hbegin, hc, Tx.Rollback]

/-- When nothing fails, `migrate` copies the legacy table into an empty destination and
commits its transaction. -/
theorem migrate_clean (f : MigrateFaults) (oldRows : List Row) (newDB : DB)
    (hempty : newDB.kine = [])
    (hcount : f.countErr = none) (hopen : f.openErr = none) (hquery : f.queryErr = none)
    (hnext : ∀ i, i ≤ oldRows.length → f.nextErr i = none)
    (hscan : ∀ i, i < oldRows.length → f.scanErr i = none)
    (hexec : ∀ i, i < oldRows.length → f.execErr i = none)
    (hbegin : f.beginErr = none) (hcommit : f.commitErr = none) :
    migrate f (some oldRows) newDB
      = ({ kine := oldRows, execs := newDB.execs + oldRows.length,
           commits := newDB.commits + 1 }, none) := by
  have hc := copyRows_clean f oldRows 0 newDB
    (fun j _ hj => hnext j (by omega)) (fun j _ hj => hscan j (by omega))
    (fun j _ hj => hexec j (by omega))
  simp [migrate, DB.countRows, hcount, hempty, hopen, hquery, hbegin, hc, Tx.Commit, hcommit]

/-- C1 (failing input): the legacy table holds two rows, the destination is empty, and the
second insert fails. `migrate` returns that error, but the destination ends with one row,
the first legacy row, not with zero rows. -/
theorem migrate_failed_insert_not_rolled_back :
    migrate { MigrateFaults.none with execErr := fun i => if i = 1 then some busy else none }
        (some [rowA, rowB]) { kine := [], execs := 0, commits := 0 }
      = ({ kine := [rowA], execs := 2, commits := 0 }, some busy) := by
  decide

/-- Whenever a run of `migrate` on an empty destination commits its transaction, every
legacy row has been copied, no scan, no insert and not the commit has failed, and no error
is returned: `migrate` attempts the commit only after the whole copy went through. -/
theorem migrate_committed (f : MigrateFaults) (oldRows : List Row) (newDB : DB)
    (hempty : newDB.kine = [])
    (hcommit : (migrate f (some oldRows) newDB).1.commits = newDB.commits + 1) :
    migrate f (some oldRows) newDB
        = ({ kine := oldRows, execs := newDB.execs + oldRows.length,
             commits := newDB.commits + 1 }, none)
      ∧ (∀ i, i < oldRows.length → f.scanErr i = none ∧ f.execErr i = none)
      ∧ f.commitErr = none := by
  have h0 : ¬ ((newDB.kine.length : Int) > 0) := by simp [hempty]
  unfold migrate DB.countRows at hcommit ⊢
  cases hc : f.countErr with
  | some e => simp [hc] at hcommit
  | none =>
      simp only [hc, h0, if_false] at hcommit ⊢
      cases ho : f.openErr with
      | some e => simp [ho] at hcommit
      | none =>
          cases hq : f.queryErr with
          | some e => simp [ho, hq] at hcommit
          | none =>
              cases hb : f.beginErr with
              | some e => simp [ho, hq, hb] at hcommit
              | none =>
                  simp only [ho, hq, hb] at hcommit ⊢
                  have hcm := copyRows_commits f oldRows 0 newDB
                  cases hr : copyRows f 0 newDB oldRows with
                  | mk db1 err =>
                      rw [hr] at hcommit hcm
                      simp only at hcm
                      cases err with
                      | some e =>
                          simp only [Tx.Rollback] at hcommit
                          omega
                      | none =>
                          obtain ⟨e1, e2⟩ := copyRows_ok f oldRows 0 newDB db1 hr
                          simp only [Tx.Commit] at hcommit ⊢
                          cases hcf : f.commitErr with
                          | some e =>
                              simp only [hcf] at hcommit
                              omega
                          | none =>
                              refine ⟨?_, fun i hi => e2 i (Nat.zero_le i) (by omega), rfl⟩
                              simp [e1, hempty]

/-- C2: for a legacy table of `N` rows and an empty destination, `migrate` returns no error
and leaves the destination with exactly the `N` legacy rows, each with its nine columns, in
the order they were read, after `N` inserts and one commit, in both readings of "every row
scan, every insert and the commit succeed": (1) when no operation of the run fails (the row
count is read, the legacy table is opened, queried and iterated to its end, the transaction
begins, and every row scan, every insert and the commit succeed); (2) whenever the run
commits its transaction, which it attempts only after every row scan and every insert has
succeeded. -/
theorem migrate_copies_every_row (f : MigrateFaults) (oldRows : List Row) (newDB : DB)
    (hempty : newDB.kine = []) :
    (f.countErr = none → f.openErr = none → f.queryErr = none → f.beginErr = none →
        (∀ i, i ≤ oldRows.length → f.nextErr i = none) →
        (∀ i, i < oldRows.length → f.scanErr i = none) →
        (∀ i, i < oldRows.length → f.execErr i = none) →
        f.commitErr = none →
        migrate f (some oldRows) newDB
          = ({ kine := oldRows, execs := newDB.execs + oldRows.length,
               commits := newDB.commits + 1 }, none))
      ∧ ((migrate f (some oldRows) newDB).1.commits = newDB.commits + 1 →
        migrate f (some oldRows) newDB
          = ({ kine := oldRows, execs := newDB.execs + oldRows.length,
               commits := newDB.commits + 1 }, none)) :=
  ⟨fun hcount hopen hquery hbegin hnext hscan hexec hcommit =>
      migrate_clean f oldRows newDB hempty hcount hopen hquery hnext hscan hexec hbegin hcommit,
   fun hcommit => (migrate_committed f oldRows newDB hempty hcommit).1⟩

theorem migrate_copies_every_row_witness :
    migrate MigrateFaults.none (some [rowA, rowB]) { kine := [], execs := 0, commits := 0 }
      = ({ kine := [rowA, rowB], execs := 0 + 2, commits := 0 + 1 }, none) :=
  (migrate_copies_every_row MigrateFaults.none [rowA, rowB]
    { kine := [], execs := 0, commits := 0 } rfl).1 rfl rfl rfl rfl
    (fun _ _ => rfl) (fun _ _ => rfl) (fun _ _ => rfl) rfl

/-- C3 (counterexample): the destination holds a row, but the `SELECT COUNT(*)` that
`migrate` starts with fails. `migrate` returns that error (lines 172-176), with or without a
legacy file, so it is not true that it returns no error for every destination that already
holds a row. The destination itself is left as it was. -/
theorem migrate_count_failure_is_returned :
    ({ kine := [rowA], execs := 0, commits := 0 } : DB).kine ≠ []
      ∧ migrate { MigrateFaults.none with countErr := some busy } (some [rowA, rowB])
          { kine := [rowA], execs := 0, commits := 0 }
        = ({ kine := [rowA], execs := 0, commits := 0 }, some busy)
      ∧ migrate { MigrateFaults.none with countErr := some busy } none
          { kine := [rowA], execs := 0, commits := 0 }
        = ({ kine := [rowA], execs := 0, commits := 0 }, some busy) := by
  refine ⟨by decide, by decide, by decide⟩

/-- C3 (as amended): for every destination whose table already holds at least one row,
whether or not a legacy file exists and whatever the later operations would do, `migrate`
sends the destination no insert and leaves it exactly as it was, and what it returns is the
outcome of its row-count query: no error when the count is read, the error of the query
when it is not. -/
theorem migrate_noop_on_populated (f : MigrateFaults) (legacy : Option (List Row))
    (newDB : DB) (h : newDB.kine ≠ []) :
    migrate f legacy newDB = (newDB, f.countErr) := by
  have hpos : (0 : Int) < (newDB.kine.length : Int) := by
    have := List.length_pos.2 h
    omega
  unfold migrate DB.countRows
  cases hc : f.countErr with
  | some e => rfl
  | none => simp [hpos]

theorem migrate_noop_on_populated_witness :
    migrate MigrateFaults.none (some [rowA, rowB]) { kine := [rowA], execs := 0, commits := 0 }
        = ({ kine := [rowA], execs := 0, commits := 0 }, none)
      ∧ migrate MigrateFaults.none none { kine := [rowA], execs := 0, commits := 0 }
        = ({ kine := [rowA], execs := 0, commits := 0 }, none)
      ∧ migrate { MigrateFaults.none with countErr := some (.external (ascii "closed")) }
          (some [rowA, rowB]) { kine := [rowB], execs := 3, commits := 1 }
        = ({ kine := [rowB], execs := 3, commits := 1 }, some (.external (ascii "closed"))) :=
  ⟨migrate_noop_on_populated MigrateFaults.none (some [rowA, rowB])
      { kine := [rowA], execs := 0, commits := 0 } (by decide),
   migrate_noop_on_populated MigrateFaults.none none
      { kine := [rowA], execs := 0, commits := 0 } (by decide),
   migrate_noop_on_populated { MigrateFaults.none with countErr := some (.external (ascii "closed")) }
      (some [rowA, rowB]) { kine := [rowB], execs := 3, commits := 1 } (by decide)⟩

/-! ### `New` -/

theorem parsePeers_driverName (vs : List Str) (result : opts) :
    (parsePeers vs result).1.driverName = result.driverName := by
  induction vs generalizing result with
  | nil => rfl
  | cons v vs ih =>
      unfold parsePeers
      simp only
      split
      · rfl
      · split
        · rfl
        · rw [ih]

theorem rangeValues_driverName (entries : List (Str × List Str)) (result : opts)
    (values : Values) :
    (rangeValues entries result values).1.1.driverName = result.driverName := by
  induction entries generalizing result values with
  | nil => rfl
  | cons e rest ih =>
      obtain ⟨k, vs⟩ := e
      unfold rangeValues
      split
      · exact ih _ _
      · split
        · have hp := parsePeers_driverName vs result
          split
          · next r1 err h => rw [h] at hp; exact hp
          · next r1 h => rw [h] at hp; rw [ih]; exact hp
        · split
          · rw [ih]
          · exact ih _ _

theorem parseOptsIn_driverName (order : Values → List (Str × List Str)) (dsn : Str) :
    (parseOptsIn order dsn).1.driverName = [] := by
  unfold parseOptsIn
  simp only
  split
  · rfl
  · split
    · rfl
    · next values h =>
        have hr := rangeValues_driverName (order values)
          { peers := [], peerFile := [], dsn := dsn, driverName := [] } values
        split
        · next r1 v1 err h2 => rw [h2] at hr; exact hr
        · next r1 v1 h2 =>
            rw [h2] at hr
            split <;> exact hr

theorem parseOpts_driverName (dsn : Str) : (parseOpts dsn).1.driverName = [] :=
  parseOptsIn_driverName id dsn

/-- C10 (as amended): every failure of a setup stage of `New` ends the call with no backend.
The errors of the peer-file open, the peer merge, the driver construction, the store open
and the migration come back wrapped with the label of the stage; the errors of `parseOpts`
and of `getDialer` come back as they are. -/
theorem New_stage_failures (env : NewEnv) (dsn : Str) (tlsInfo : TLSConfig) :
    (∀ o e, parseOpts dsn = (o, some e) →
        New env dsn tlsInfo = .returned none (some e) env.registered)
    ∧ (∀ o e, parseOpts dsn = (o, none) → openNodeStore env o = .error e →
        New env dsn tlsInfo
          = .returned none (some (.wrap e (ascii "opening peerfile"))) env.registered)
    ∧ (∀ o ns ns1 e, parseOpts dsn = (o, none) → openNodeStore env o = .ok ns →
        AddPeers env.storeFaults ns o.peers = (ns1, some e) →
        New env dsn tlsInfo
          = .returned none (some (.wrap e (ascii "add peers"))) env.registered)
    ∧ (∀ o ns ns1 e, parseOpts dsn = (o, none) → openNodeStore env o = .ok ns →
        AddPeers env.storeFaults ns o.peers = (ns1, none) →
        getDialer env.tlsFiles tlsInfo = .error e →
        New env dsn tlsInfo = .returned none (some e) env.registered)
    ∧ (∀ o ns ns1 dial e, parseOpts dsn = (o, none) → openNodeStore env o = .ok ns →
        AddPeers env.storeFaults ns o.peers = (ns1, none) →
        getDialer env.tlsFiles tlsInfo = .ok dial → env.driverNewErr = some e →
        New env dsn tlsInfo
          = .returned none (some (.wrap e (ascii "new dqlite driver"))) env.registered)
    ∧ (∀ o ns ns1 dial e, parseOpts dsn = (o, none) → openNodeStore env o = .ok ns →
        AddPeers env.storeFaults ns o.peers = (ns1, none) →
        getDialer env.tlsFiles tlsInfo = .ok dial → env.driverNewErr = none →
        ascii "dqlite" ∉ env.registered →
        env.NewVariant (ascii "dqlite") o.dsn = .error e →
        New env dsn tlsInfo
          = .returned none (some (.wrap e (ascii "sqlite client")))
              (ascii "dqlite" :: env.registered))
    ∧ (∀ o ns ns1 dial db db1 e, parseOpts dsn = (o, none) → openNodeStore env o = .ok ns →
        AddPeers env.storeFaults ns o.peers = (ns1, none) →
        getDialer env.tlsFiles tlsInfo = .ok dial → env.driverNewErr = none →
        ascii "dqlite" ∉ env.registered →
        env.NewVariant (ascii "dqlite") o.dsn = .ok db →
        migrate env.migrateFaults env.legacy db = (db1, some e) →
        New env dsn tlsInfo
          = .returned none (some (.wrap e (ascii "failed to migrate DB from sqlite")))
              (ascii "dqlite" :: env.registered)) := by
  have hd := parseOpts_driverName dsn
  refine ⟨?_, ?_, ?_, ?_, ?_, ?_, ?_⟩
  · intro o e hp
    simp [New, hp]
  · intro o e hp hs
    simp [New, hp, hs]
  · intro o ns ns1 e hp hs ha
    simp [New, hp, hs, ha]
  · intro o ns ns1 e hp hs ha hg
    rw [hp] at hd
    simp only at hd
    simp [New, hp, hs, ha, hg, hd]
  · intro o ns ns1 dial e hp hs ha hg hdr
    rw [hp] at hd
    simp only at hd
    simp [New, hp, hs, ha, hg, hd, hdr]
  · intro o ns ns1 dial e hp hs ha hg hdr hreg hv
    rw [hp] at hd
    simp only at hd
    simp [New, hp, hs, ha, hg, hd, hdr, hreg, hv]
  · intro o ns ns1 dial db db1 e hp hs ha hg hdr hreg hv hm
    rw [hp] at hd
    simp only at hd
    simp [New, hp, hs, ha, hg, hd, hdr, hreg, hv, hm]

theorem New_stage_failures_witness :
    New { quietEnv with NewVariant := fun _ _ => .error busy } (ascii "db?peer=1:h:9") ⟨[], []⟩
        = .returned none (some (.wrap busy (ascii "sqlite client"))) [ascii "dqlite"]
      ∧ New quietEnv (ascii "db?peer=bad") ⟨[], []⟩
        = .returned none (some (.text (ascii "must be ID:IP:PORT format got: bad"))) [] :=
  ⟨(New_stage_failures { quietEnv with NewVariant := fun _ _ => .error busy }
      (ascii "db?peer=1:h:9") ⟨[], []⟩).2.2.2.2.2.1
      { peers := [⟨1, ascii "h:9"⟩], peerFile := [], dsn := ascii "db", driverName := [] }
      { servers := [], setCalls := 0 } { servers := [⟨1, ascii "h:9"⟩], setCalls := 1 }
      .default busy (by decide) rfl (by decide) rfl rfl (by decide) rfl,
   (New_stage_failures quietEnv (ascii "db?peer=bad") ⟨[], []⟩).1
      { peers := [], peerFile := [], dsn := ascii "db?peer=bad", driverName := [] }
      (.text (ascii "must be ID:IP:PORT format got: bad")) (by decide)⟩

/-- C10 (counterexample): a failure of the option parsing and a failure of the dialer
construction both end `New` with no backend, but the error returned is the error of
`parseOpts`, respectively of `getDialer`, itself: it is not wrapped, and carries no label
of the stage. -/
theorem New_unwrapped_errors :
    ((New quietEnv (ascii "db?peer=bad") ⟨[], []⟩).err
          = (parseOpts (ascii "db?peer=bad")).2
        ∧ (New quietEnv (ascii "db?peer=bad") ⟨[], []⟩).err
          = some (.text (ascii "must be ID:IP:PORT format got: bad"))
        ∧ (New quietEnv (ascii "db?peer=bad") ⟨[], []⟩).hasBackend = false)
      ∧ ((New quietEnv (ascii "db") ⟨ascii "cert.pem", []⟩).err
          = some (.text (ascii "both TLS certificate and key must be given"))
        ∧ getDialer quietEnv.tlsFiles ⟨ascii "cert.pem", []⟩
          = .error (.text (ascii "both TLS certificate and key must be given"))
        ∧ (New quietEnv (ascii "db") ⟨ascii "cert.pem", []⟩).hasBackend = false)
      ∧ ∀ msg cause label, Error.text msg ≠ Error.wrap cause label := by
  refine ⟨⟨by decide, by decide, by decide⟩, ⟨by decide, rfl, by decide⟩, ?_⟩
  intro msg cause label h
  cases h

/-! ### `net/url`: escaping and parsing -/

set_option maxRecDepth 100000 in
theorem hex_roundtrip : ∀ c : Fin 256,
    ishex (upperhex (c.val / 16)) = true ∧ ishex (upperhex (c.val % 16)) = true
      ∧ (Fin.ofNat (unhex (upperhex (c.val / 16)) * 16 + unhex (upperhex (c.val % 16)))
          : Fin 256) = c := by
  decide

set_option maxRecDepth 100000 in
theorem unreserved_plain : ∀ c : Fin 256, shouldEscape c = false →
    c ≠ chPercent ∧ c ≠ chPlus ∧ c ≠ chAmp ∧ c ≠ chEq ∧ c ≠ chSemi := by
  decide

set_option maxRecDepth 100000 in
theorem upperhex_plain : ∀ c : Fin 256,
    upperhex (c.val / 16) ≠ chAmp ∧ upperhex (c.val / 16) ≠ chEq
      ∧ upperhex (c.val / 16) ≠ chSemi ∧ upperhex (c.val % 16) ≠ chAmp
      ∧ upperhex (c.val % 16) ≠ chEq ∧ upperhex (c.val % 16) ≠ chSemi := by
  decide

theorem QueryUnescape_QueryEscape (s : Str) : QueryUnescape (QueryEscape s) = .ok s := by
  induction s with
  | nil => rfl
  | cons c s ih =>
      unfold QueryEscape
      by_cases hsp : c = chSpace
      · subst hsp
        simp only [if_true]
        unfold QueryUnescape
        have hne : ¬ (chPlus = chPercent) := by decide
        simp [hne, ih]
      · simp only [hsp, if_false]
        cases hse : shouldEscape c with
        | true =>
            obtain ⟨h1, h2, h3⟩ := hex_roundtrip c
            simp only [if_true]
            unfold QueryUnescape
            simp [h1, h2, h3, ih]
        | false =>
            obtain ⟨hp, hpl, -⟩ := unreserved_plain c hse
            simp only [Bool.false_eq_true, if_false]
            unfold QueryUnescape
            simp [hp, hpl, ih]

theorem QueryEscape_plain (s : Str) :
    chAmp ∉ QueryEscape s ∧ chEq ∉ QueryEscape s ∧ chSemi ∉ QueryEscape s := by
  induction s with
  | nil => simp [QueryEscape]
  | cons c s ih =>
      obtain ⟨ia, ie, is⟩ := ih
      unfold QueryEscape
      by_cases hsp : c = chSpace
      · simp only [hsp, if_true, List.mem_cons, not_or]
        exact ⟨⟨by decide, ia⟩, ⟨by decide, ie⟩, ⟨by decide, is⟩⟩
      · simp only [hsp, if_false]
        cases hse : shouldEscape c with
        | true =>
            obtain ⟨a1, a2, a3, a4, a5, a6⟩ := upperhex_plain c
            simp only [if_true, List.mem_cons, not_or]
            exact ⟨⟨by decide, Ne.symm a1, Ne.symm a4, ia⟩, ⟨by decide, Ne.symm a2, Ne.symm a5, ie⟩,
              ⟨by decide, Ne.symm a3, Ne.symm a6, is⟩⟩
        | false =>
            obtain ⟨-, -, ha, he, hs⟩ := unreserved_plain c hse
            simp only [Bool.false_eq_true, if_false, List.mem_cons, not_or]
            exact ⟨⟨Ne.symm ha, ia⟩, ⟨Ne.symm he, ie⟩, ⟨Ne.symm hs, is⟩⟩

theorem cut_of_not_mem (sep : Fin 256) (s : Str) (h : sep ∉ s) : cut sep s = none := by
  induction s with
  | nil => rfl
  | cons c s ih =>
      simp only [List.mem_cons, not_or] at h
      have hc : ¬ c = sep := fun e => h.1 e.symm
      simp [cut, hc, ih h.2]

theorem cut_append (sep : Fin 256) (a b : Str) (h : sep ∉ a) :
    cut sep (a ++ sep :: b) = some (a, b) := by
  induction a with
  | nil => simp [cut]
  | cons c a ih =>
      simp only [List.mem_cons, not_or] at h
      have hc : ¬ c = sep := fun e => h.1 e.symm
      simp [cut, hc, ih h.2]

theorem cut_some (sep : Fin 256) (s a b : Str) (h : cut sep s = some (a, b)) :
    s = a ++ sep :: b ∧ sep ∉ a := by
  induction s generalizing a with
  | nil => simp [cut] at h
  | cons c s ih =>
      unfold cut at h
      by_cases hc : c = sep
      · simp only [hc, if_true, Option.some.injEq, Prod.mk.injEq] at h
        obtain ⟨rfl, rfl⟩ := h
        simp [hc]
      · simp only [hc, if_false] at h
        cases hr : cut sep s with
        | none => simp [hr] at h
        | some p =>
            obtain ⟨a1, b1⟩ := p
            simp only [hr, Option.some.injEq, Prod.mk.injEq] at h
            obtain ⟨rfl, rfl⟩ := h
            obtain ⟨e, hn⟩ := ih a1 hr
            refine ⟨by rw [e]; rfl, ?_⟩
            simp only [List.mem_cons, not_or]
            exact ⟨fun e => hc e.symm, hn⟩

theorem cut_none (sep : Fin 256) (s : Str) (h : cut sep s = none) : sep ∉ s := by
  induction s with
  | nil => simp
  | cons c s ih =>
      unfold cut at h
      by_cases hc : c = sep
      · simp [hc] at h
      · simp only [hc, if_false] at h
        cases hr : cut sep s with
        | none =>
            simp only [List.mem_cons, not_or]
            exact ⟨fun e => hc e.symm, ih hr⟩
        | some p => simp [hr] at h

theorem split_ne_nil (sep : Fin 256) (s : Str) : split sep s ≠ [] := by
  induction s with
  | nil => simp [split]
  | cons c s ih =>
      unfold split
      by_cases hc : c = sep
      · simp [hc]
      · simp only [hc, if_false]
        cases hr : split sep s with
        | nil => simp
        | cons p ps => simp

theorem split_of_not_mem (sep : Fin 256) (s : Str) (h : sep ∉ s) : split sep s = [s] := by
  induction s with
  | nil => rfl
  | cons c s ih =>
      simp only [List.mem_cons, not_or] at h
      have hc : ¬ c = sep := fun e => h.1 e.symm
      simp [split, hc, ih h.2]

theorem split_append (sep : Fin 256) (a b : Str) (h : sep ∉ a) :
    split sep (a ++ sep :: b) = a :: split sep b := by
  induction a with
  | nil => simp [split]
  | cons c a ih =>
      simp only [List.mem_cons, not_or] at h
      have hc : ¬ c = sep := fun e => h.1 e.symm
      simp [split, hc, ih h.2]

/-! ### `url.Values` -/

theorem Values.keys_add (m : Values) (k v : Str) :
    (m.add k v).keys = if k ∈ m.keys then m.keys else m.keys ++ [k] := by
  induction m with
  | nil => simp [Values.add, Values.keys]
  | cons e rest ih =>
      obtain ⟨k1, vs⟩ := e
      unfold Values.add
      by_cases h : k1 = k
      · simp [h, Values.keys]
      · have h' : ¬ k = k1 := fun e => h e.symm
        simp only [h, if_false]
        simp only [Values.keys, List.map_cons, List.mem_cons, h', false_or] at ih ⊢
        rw [ih]
        split <;> simp

theorem Values.get_add (m : Values) (k v key : Str) :
    (m.add k v).get key = if key = k then m.get k ++ [v] else m.get key := by
  induction m with
  | nil =>
      by_cases h : key = k
      · simp [Values.add, Values.get, h]
      · have h' : ¬ k = key := fun e => h e.symm
        simp [Values.add, Values.get, h, h']
  | cons e rest ih =>
      obtain ⟨k1, vs⟩ := e
      unfold Values.add
      by_cases h1 : k1 = k
      · subst h1
        by_cases h : key = k1
        · simp [Values.get, h]
        · have h' : ¬ k1 = key := fun e => h e.symm
          simp [Values.get, h, h']
      · simp only [h1, if_false]
        by_cases h : key = k
        · subst h
          simp [Values.get, h1, ih]
        · simp only [Values.get, h, if_false, ih]

theorem Values.WF_add (m : Values) (k v : Str) (h : m.WF) : (m.add k v).WF := by
  obtain ⟨hk, hv⟩ := h
  refine ⟨?_, ?_⟩
  · rw [Values.keys_add]
    split
    · exact hk
    · next hn =>
        rw [List.nodup_append]
        refine ⟨hk, List.nodup_singleton k, ?_⟩
        intro a ha hb
        simp only [List.mem_singleton] at hb
        subst hb
        exact hn ha
  · clear hk
    induction m with
    | nil =>
        intro e he
        simp only [Values.add, List.mem_singleton] at he
        subst he
        simp
    | cons e rest ih =>
        obtain ⟨k1, vs⟩ := e
        intro e he
        unfold Values.add at he
        by_cases h1 : k1 = k
        · simp only [h1, if_true, List.mem_cons] at he
          rcases he with rfl | he
          · simp
          · exact hv e (List.mem_cons_of_mem _ he)
        · simp only [h1, if_false, List.mem_cons] at he
          rcases he with rfl | he
          · exact hv _ (List.mem_cons_self _ _)
          · exact ih (fun e he => hv e (List.mem_cons_of_mem _ he)) e he

theorem Values.get_of_not_mem (m : Values) (key : Str) (h : key ∉ m.keys) :
    m.get key = [] := by
  induction m with
  | nil => rfl
  | cons e rest ih =>
      obtain ⟨k1, vs⟩ := e
      simp only [Values.keys, List.map_cons, List.mem_cons, not_or] at h
      have h1 : ¬ k1 = key := fun e => h.1 e.symm
      simp only [Values.get, h1, if_false]
      exact ih h.2

theorem Values.get_of_mem (m : Values) (key : Str) (vs : List Str) (hk : m.keys.Nodup)
    (h : (key, vs) ∈ m) : m.get key = vs := by
  induction m with
  | nil => simp at h
  | cons e rest ih =>
      obtain ⟨k1, vs1⟩ := e
      simp only [Values.keys, List.map_cons, List.nodup_cons] at hk
      simp only [List.mem_cons, Prod.mk.injEq] at h
      rcases h with ⟨rfl, rfl⟩ | h
      · simp [Values.get]
      · have hne : ¬ k1 = key := by
          intro e
          subst e
          exact hk.1 (List.mem_map.2 ⟨_, h, rfl⟩)
        simp only [Values.get, hne, if_false]
        exact ih hk.2 h

theorem Values.mem_of_get_ne_nil (m : Values) (key : Str) (h : m.get key ≠ []) :
    (key, m.get key) ∈ m := by
  induction m with
  | nil => simp [Values.get] at h
  | cons e rest ih =>
      obtain ⟨k1, vs1⟩ := e
      by_cases h1 : k1 = key
      · subst h1
        simp [Values.get]
      · simp only [Values.get, h1, if_false] at h ⊢
        exact List.mem_cons_of_mem _ (ih h)

theorem Values.get_perm (m m1 : Values) (hp : m.Perm m1) (hk : m.keys.Nodup) (key : Str) :
    m1.get key = m.get key := by
  have hk1 : m1.keys.Nodup := (hp.map Prod.fst).nodup_iff.1 hk
  by_cases h : m.get key = []
  · rw [h]
    by_cases h1 : m1.get key = []
    · exact h1
    · have hm := Values.mem_of_get_ne_nil m1 key h1
      have hm' := hp.symm.subset hm
      rw [Values.get_of_mem m key _ hk hm'] at h
      exact h
  · have hm := Values.mem_of_get_ne_nil m key h
    exact Values.get_of_mem m1 key _ hk1 (hp.subset hm)

theorem Values.keys_delete (m : Values) (k : Str) :
    (m.delete k).keys = m.keys.filter (fun x => decide (x ≠ k)) := by
  induction m with
  | nil => rfl
  | cons e rest ih =>
      obtain ⟨k1, vs⟩ := e
      simp only [Values.delete, Values.keys] at ih ⊢
      by_cases h : k1 = k
      · simp only [List.filter_cons, ne_eq, h, not_true_eq_false, decide_False,
          Bool.false_eq_true, if_false, List.map_cons]
        exact ih
      · simp only [List.filter_cons, ne_eq, h, not_false_eq_true, decide_True, if_true,
          List.map_cons]
        rw [ih]

theorem Values.get_delete (m : Values) (k key : Str) :
    (m.delete k).get key = if key = k then [] else m.get key := by
  induction m with
  | nil => simp [Values.delete, Values.get]
  | cons e rest ih =>
      obtain ⟨k1, vs⟩ := e
      simp only [Values.delete] at ih ⊢
      by_cases h : k1 = k
      · subst h
        simp only [List.filter_cons, ne_eq, not_true_eq_false, decide_False,
          Bool.false_eq_true, if_false, ih]
        by_cases h2 : key = k1
        · simp [h2]
        · have h2' : ¬ k1 = key := fun e => h2 e.symm
          simp [Values.get, h2, h2']
      · simp only [List.filter_cons, ne_eq, h, not_false_eq_true, decide_True, if_true]
        by_cases h2 : k1 = key
        · subst h2
          simp [Values.get, h]
        · simp only [Values.get, h2, if_false, ih]

theorem Values.WF_delete (m : Values) (k : Str) (h : m.WF) : (m.delete k).WF := by
  obtain ⟨hk, hv⟩ := h
  refine ⟨?_, ?_⟩
  · rw [Values.keys_delete]
    exact hk.filter _
  · intro e he
    exact hv e (List.mem_of_mem_filter he)

theorem parseQueryStep_WF (st : Values × Option Error) (key : Str) (h : st.1.WF) :
    (parseQueryStep st key).1.WF := by
  unfold parseQueryStep
  split
  · exact h
  · split
    · exact h
    · simp only
      split
      · exact h
      · split
        · exact h
        · exact Values.WF_add _ _ _ h

theorem foldl_parseQueryStep_WF (ps : List Str) (st : Values × Option Error) (h : st.1.WF) :
    (ps.foldl parseQueryStep st).1.WF := by
  induction ps generalizing st with
  | nil => exact h
  | cons p ps ih => exact ih _ (parseQueryStep_WF st p h)

theorem ParseQuery_WF (query : Str) : (ParseQuery query).1.WF :=
  foldl_parseQueryStep_WF _ _ ⟨List.nodup_nil, fun _ h => absurd h (List.not_mem_nil _)⟩

theorem Values.add_fresh (acc : Values) (k v : Str) (h : k ∉ acc.keys) :
    acc.add k v = acc ++ [(k, [v])] := by
  induction acc with
  | nil => rfl
  | cons e rest ih =>
      obtain ⟨k1, vs⟩ := e
      simp only [Values.keys, List.map_cons, List.mem_cons, not_or] at h
      have h1 : ¬ k1 = k := fun e => h.1 e.symm
      simp only [Values.add, h1, if_false, List.cons_append]
      rw [ih h.2]

theorem Values.add_last (acc : Values) (k v : Str) (l : List Str) (h : k ∉ acc.keys) :
    (acc ++ [(k, l)]).add k v = acc ++ [(k, l ++ [v])] := by
  induction acc with
  | nil => simp [Values.add]
  | cons e rest ih =>
      obtain ⟨k1, vs⟩ := e
      simp only [Values.keys, List.map_cons, List.mem_cons, not_or] at h
      have h1 : ¬ k1 = k := fun e => h.1 e.symm
      simp only [List.cons_append, Values.add, h1, if_false]
      exact congrArg _ (ih h.2)

theorem foldl_add_same_key (acc : Values) (k : Str) (l vs : List Str) (h : k ∉ acc.keys) :
    (vs.map (fun v => (k, v))).foldl (fun a p => a.add p.1 p.2) (acc ++ [(k, l)])
      = acc ++ [(k, l ++ vs)] := by
  induction vs generalizing l with
  | nil => simp
  | cons v vs ih =>
      simp only [List.map_cons, List.foldl_cons]
      rw [Values.add_last acc k v l h, ih]
      simp

theorem foldl_add_pairs (m acc : Values) (hm : m.WF)
    (hd : ∀ k ∈ m.keys, k ∉ acc.keys) (hacc : acc.keys.Nodup) :
    m.pairs.foldl (fun a p => a.add p.1 p.2) acc = acc ++ m := by
  induction m generalizing acc with
  | nil => simp [Values.pairs]
  | cons e rest ih =>
      obtain ⟨k, vs⟩ := e
      obtain ⟨hk, hv⟩ := hm
      simp only [Values.keys, List.map_cons, List.nodup_cons] at hk
      have hkacc : k ∉ acc.keys := hd k (by simp [Values.keys])
      cases vs with
      | nil => exact absurd rfl (hv (k, []) (List.mem_cons_self _ _))
      | cons v vs =>
          simp only [Values.pairs, List.map_cons, List.cons_append, List.foldl_cons,
            List.foldl_append]
          rw [Values.add_fresh acc k v hkacc, foldl_add_same_key acc k [v] vs hkacc]
          rw [ih (acc ++ [(k, [v] ++ vs)]) ⟨hk.2, fun e he => hv e (List.mem_cons_of_mem _ he)⟩]
          · simp
          · intro k1 hk1
            simp only [Values.keys, List.map_append, List.map_cons, List.map_nil,
              List.mem_append, List.mem_singleton, not_or]
            refine ⟨hd k1 (by simp [Values.keys]; exact Or.inr (by simpa [Values.keys] using hk1)), ?_⟩
            intro e
            subst e
            exact hk.1 hk1
          · simp only [Values.keys, List.map_append, List.map_cons, List.map_nil]
            rw [List.nodup_append]
            refine ⟨hacc, List.nodup_singleton k, ?_⟩
            intro a ha hb
            simp only [List.mem_singleton] at hb
            subst hb
            exact hkacc ha

theorem pairText_plain (p : Str × Str) :
    chAmp ∉ pairText p ∧ chSemi ∉ pairText p ∧ pairText p ≠ [] := by
  obtain ⟨a1, -, a3⟩ := QueryEscape_plain p.1
  obtain ⟨b1, -, b3⟩ := QueryEscape_plain p.2
  refine ⟨?_, ?_, ?_⟩
  · simp only [pairText, List.mem_append, List.mem_cons, not_or]
    exact ⟨a1, by decide, b1⟩
  · simp only [pairText, List.mem_append, List.mem_cons, not_or]
    exact ⟨a3, by decide, b3⟩
  · simp [pairText]

theorem parseQueryStep_pairText (st : Values × Option Error) (p : Str × Str) :
    parseQueryStep st (pairText p) = (st.1.add p.1 p.2, st.2) := by
  obtain ⟨-, h2, h3⟩ := pairText_plain p
  obtain ⟨-, he, -⟩ := QueryEscape_plain p.1
  have hc : cut chEq (pairText p) = some (QueryEscape p.1, QueryEscape p.2) :=
    cut_append chEq _ _ he
  unfold parseQueryStep
  simp only [h2, h3, if_false, hc, QueryUnescape_QueryEscape]

theorem foldl_parseQueryStep_pairs (ps : List (Str × Str)) (st : Values × Option Error) :
    (ps.map pairText).foldl parseQueryStep st
      = (ps.foldl (fun a p => a.add p.1 p.2) st.1, st.2) := by
  induction ps generalizing st with
  | nil => rfl
  | cons p ps ih =>
      simp only [List.map_cons, List.foldl_cons]
      rw [parseQueryStep_pairText, ih]

theorem writeAll_nonempty (buf : Str) (ps : List Str) (hb : buf ≠ []) :
    writeAll buf ps = buf ++ tailJoin ps := by
  induction ps generalizing buf with
  | nil => simp [writeAll, tailJoin]
  | cons p ps ih =>
      have hl : buf.length > 0 := List.length_pos.2 hb
      simp only [writeAll, List.foldl_cons, hl, if_true] at ih ⊢
      rw [ih _ (by simp)]
      simp [tailJoin]

theorem writeAll_empty (p : Str) (ps : List Str) (hp : p ≠ []) :
    writeAll [] (p :: ps) = p ++ tailJoin ps := by
  have h := writeAll_nonempty p ps hp
  simp only [writeAll, List.foldl_cons, List.length_nil, gt_iff_lt, Nat.lt_irrefl, if_false,
    List.nil_append] at h ⊢
  exact h

theorem split_tailJoin (p : Str) (ps : List Str) (hp : chAmp ∉ p)
    (hps : ∀ q ∈ ps, chAmp ∉ q) : split chAmp (p ++ tailJoin ps) = p :: ps := by
  induction ps generalizing p with
  | nil => simpa [tailJoin] using split_of_not_mem chAmp p hp
  | cons q qs ih =>
      simp only [tailJoin]
      rw [split_append chAmp p _ hp,
        ih q (hps q (List.mem_cons_self _ _)) (fun r hr => hps r (List.mem_cons_of_mem _ hr))]

theorem encodeKey_eq (ke buf : Str) (vs : List Str) :
    encodeKey ke buf vs = writeAll buf (vs.map (fun v => ke ++ chEq :: QueryEscape v)) := by
  induction vs generalizing buf with
  | nil => rfl
  | cons v vs ih =>
      simp only [encodeKey, List.map_cons, writeAll, List.foldl_cons]
      rw [ih]
      simp [writeAll]

theorem encodeLoop_eq (buf : Str) (m : Values) :
    encodeLoop buf m = writeAll buf (m.pairs.map pairText) := by
  induction m generalizing buf with
  | nil => rfl
  | cons e rest ih =>
      obtain ⟨k, vs⟩ := e
      simp only [encodeLoop, Values.pairs, List.map_append, List.map_map]
      rw [ih, encodeKey_eq]
      simp only [writeAll, List.foldl_append]
      rfl

theorem ParseQuery_encodeLoop (m : Values) (hm : m.WF) :
    ParseQuery (encodeLoop [] m) = (m, none) := by
  rw [encodeLoop_eq]
  cases hps : m.pairs.map pairText with
  | nil =>
      cases m with
      | nil => rfl
      | cons e rest =>
          obtain ⟨k, vs⟩ := e
          cases vs with
          | nil => exact absurd rfl (hm.2 (k, []) (List.mem_cons_self _ _))
          | cons v vs => simp [Values.pairs] at hps
  | cons p ps =>
      have hmem : ∀ q ∈ p :: ps, chAmp ∉ q ∧ q ≠ [] := by
        intro q hq
        rw [← hps] at hq
        obtain ⟨pr, -, rfl⟩ := List.mem_map.1 hq
        exact ⟨(pairText_plain pr).1, (pairText_plain pr).2.2⟩
      have hp := hmem p (List.mem_cons_self _ _)
      rw [writeAll_empty p ps hp.2]
      unfold ParseQuery
      rw [split_tailJoin p ps hp.1 (fun q hq => (hmem q (List.mem_cons_of_mem _ hq)).1), ← hps,
        foldl_parseQueryStep_pairs]
      simp only
      rw [foldl_add_pairs m [] hm (fun _ _ => by simp [Values.keys]) (by simp [Values.keys])]
      simp

theorem ParseQuery_Encode (m : Values) (hm : m.WF) :
    (ParseQuery m.Encode).2 = none ∧ ∀ key, (ParseQuery m.Encode).1.get key = m.get key := by
  unfold Values.Encode
  by_cases h0 : m.length = 0
  · have : m = [] := List.length_eq_zero.1 h0
    subst this
    exact ⟨rfl, fun _ => rfl⟩
  · simp only [h0, if_false]
    have hperm := List.perm_insertionSort (fun a b : Str × List Str => strLe a.1 b.1 = true) m
    have hwf : Values.WF (m.insertionSort (fun a b => strLe a.1 b.1 = true)) :=
      ⟨(hperm.symm.map Prod.fst).nodup_iff.1 hm.1, fun e he => hm.2 e (hperm.subset he)⟩
    rw [ParseQuery_encodeLoop _ hwf]
    exact ⟨rfl, fun key => Values.get_perm m _ hperm.symm hm.1 key⟩

/-! ### `strconv.ParseUint` -/

theorem foldl_digits_ge (s : Str) (n : Nat) :
    n ≤ s.foldl (fun n c => 10 * n + (c.val - 48)) n := by
  induction s generalizing n with
  | nil => exact Nat.le_refl n
  | cons c s ih =>
      simp only [List.foldl_cons]
      exact Nat.le_trans (by omega) (ih _)

theorem parseUintLoop_digits (s0 s : Str) (n : Nat) (hd : ∀ c ∈ s, isDigit c = true)
    (hv : s.foldl (fun n c => 10 * n + (c.val - 48)) n < 2 ^ 64) :
    parseUintLoop s0 n s = .ok (s.foldl (fun n c => 10 * n + (c.val - 48)) n) := by
  induction s generalizing n with
  | nil => rfl
  | cons c s ih =>
      have hc := hd c (List.mem_cons_self _ _)
      simp only [List.foldl_cons] at hv ⊢
      have hge := foldl_digits_ge s (10 * n + (c.val - 48))
      have hlt : 10 * n + (c.val - 48) < 18446744073709551616 := by
        have : (2 : Nat) ^ 64 = 18446744073709551616 := by norm_num
        omega
      unfold parseUintLoop
      simp only [hc, if_true, maxUint64]
      have e64 : (2 : Nat) ^ 64 = 18446744073709551616 := by norm_num
      simp only [e64]
      have h1 : ¬ (n ≥ (18446744073709551616 - 1) / 10 + 1) := by omega
      have h2 : n * 10 % 18446744073709551616 = n * 10 := Nat.mod_eq_of_lt (by omega)
      have h3 : (n * 10 + (c.val - 48)) % 18446744073709551616 = n * 10 + (c.val - 48) :=
        Nat.mod_eq_of_lt (by omega)
      simp only [h1, if_false, h2, h3]
      have h4 : ¬ (n * 10 + (c.val - 48) < n * 10 ∨
          n * 10 + (c.val - 48) > 18446744073709551616 - 1) := by omega
      simp only [h4, if_false]
      have h5 : n * 10 + (c.val - 48) = 10 * n + (c.val - 48) := by omega
      rw [h5]
      exact ih _ (fun c hc => hd c (List.mem_cons_of_mem _ hc)) (by rw [e64]; omega)

theorem parseUintLoop_ok (s0 s : Str) (n m : Nat) (hn : n < 2 ^ 64)
    (h : parseUintLoop s0 n s = .ok m) :
    (∀ c ∈ s, isDigit c = true) ∧ m = s.foldl (fun n c => 10 * n + (c.val - 48)) n
      ∧ m < 2 ^ 64 := by
  induction s generalizing n with
  | nil =>
      simp only [parseUintLoop, Except.ok.injEq] at h
      subst h
      exact ⟨fun _ h => absurd h (List.not_mem_nil _), rfl, hn⟩
  | cons c s ih =>
      have e64 : (2 : Nat) ^ 64 = 18446744073709551616 := by norm_num
      unfold parseUintLoop at h
      cases hc : isDigit c with
      | false => simp [hc] at h
      | true =>
          simp only [hc, if_true, maxUint64, e64] at h
          by_cases h1 : n ≥ (18446744073709551616 - 1) / 10 + 1
          · simp [h1] at h
          · simp only [h1, if_false] at h
            have h2 : n * 10 % 18446744073709551616 = n * 10 := Nat.mod_eq_of_lt (by omega)
            simp only [h2] at h
            by_cases h4 : (n * 10 + (c.val - 48)) % 18446744073709551616 < n * 10 ∨
                (n * 10 + (c.val - 48)) % 18446744073709551616 > 18446744073709551616 - 1
            · simp [h4] at h
            · simp only [h4, if_false] at h
              have hd : c.val - 48 < 10 := by
                simp only [isDigit, Bool.and_eq_true, decide_eq_true_eq] at hc
                omega
              have h3 : (n * 10 + (c.val - 48)) % 18446744073709551616
                  = n * 10 + (c.val - 48) := by
                apply Nat.mod_eq_of_lt
                by_contra hge
                have hsub : (n * 10 + (c.val - 48)) % 18446744073709551616
                    = n * 10 + (c.val - 48) - 18446744073709551616 := by
                  rw [Nat.mod_eq_sub_mod (by omega)]
                  exact Nat.mod_eq_of_lt (by omega)
                omega
              rw [h3] at h
              have hlt : n * 10 + (c.val - 48) < 2 ^ 64 := by
                rw [e64]
                have := Nat.mod_lt (n * 10 + (c.val - 48))
                  (show 18446744073709551616 > 0 by omega)
                omega
              obtain ⟨a, b, d⟩ := ih _ hlt h
              refine ⟨?_, ?_, d⟩
              · intro x hx
                rcases List.mem_cons.1 hx with rfl | hx
                · exact hc
                · exact a x hx
              · simp only [List.foldl_cons]
                have h5 : n * 10 + (c.val - 48) = 10 * n + (c.val - 48) := by omega
                rw [← h5]
                exact b

theorem parseUintLoop_error (s0 s : Str) (n : Nat) (e : Error)
    (h : parseUintLoop s0 n s = .error e) : ∃ range, e = .numError s0 range := by
  induction s generalizing n with
  | nil => simp [parseUintLoop] at h
  | cons c s ih =>
      unfold parseUintLoop at h
      simp only at h
      split at h
      · split at h
        · exact ⟨true, by simpa using h.symm⟩
        · split at h
          · exact ⟨true, by simpa using h.symm⟩
          · exact ih _ h
      · exact ⟨false, by simpa using h.symm⟩

theorem ParseUint_digits (s : Str) (hne : s ≠ []) (hd : ∀ c ∈ s, isDigit c = true)
    (hv : decimalValue s < 2 ^ 64) : ParseUint s = .ok (decimalValue s) := by
  unfold ParseUint
  simp only [hne, if_false]
  exact parseUintLoop_digits s s 0 hd hv

theorem ParseUint_reject (s : Str)
    (h : ¬ (s ≠ [] ∧ (∀ c ∈ s, isDigit c = true) ∧ decimalValue s < 2 ^ 64)) :
    ∃ range, ParseUint s = .error (.numError s range) := by
  unfold ParseUint
  by_cases hne : s = []
  · exact ⟨false, by simp [hne]⟩
  · simp only [hne, if_false]
    cases hr : parseUintLoop s 0 s with
    | error e =>
        obtain ⟨r, hr'⟩ := parseUintLoop_error s s 0 e hr
        exact ⟨r, by rw [hr']⟩
    | ok m =>
        obtain ⟨a, b, c⟩ := parseUintLoop_ok s s 0 m (by norm_num) hr
        exact absurd ⟨hne, a, by rw [decimalValue, ← b]; exact c⟩ h

/-! ### `parseOpts`: the peer values -/

theorem count_of_cut_none (sep : Fin 256) (s : Str) (h : cut sep s = none) :
    s.count sep = 0 :=
  List.count_eq_zero.2 (cut_none sep s h)

theorem count_of_cut_some (sep : Fin 256) (s a b : Str) (h : cut sep s = some (a, b)) :
    s.count sep = b.count sep + 1 := by
  obtain ⟨e, hn⟩ := cut_some sep s a b h
  rw [e, List.count_append, List.count_eq_zero.2 hn, List.count_cons_self]
  omega

theorem splitN_three (v : Str) :
    ((splitN chColon 3 v).length = 3 ↔ 2 ≤ v.count chColon)
      ∧ (splitN chColon 3 v).getD 0 [] = idText v
      ∧ (2 ≤ v.count chColon →
          (splitN chColon 3 v).getD 1 [] ++ ascii ":" ++ (splitN chColon 3 v).getD 2 []
            = addressText v) := by
  have hcolon : ascii ":" = [chColon] := by decide
  cases h1 : cut chColon v with
  | none =>
      have c0 := count_of_cut_none _ _ h1
      simp [splitN, h1, idText, c0]
  | some p =>
      obtain ⟨a, r⟩ := p
      have c1 := count_of_cut_some _ _ _ _ h1
      cases h2 : cut chColon r with
      | none =>
          have c0 := count_of_cut_none _ _ h2
          simp [splitN, h1, h2, idText, c1, c0]
      | some q =>
          obtain ⟨b, c⟩ := q
          have c2 := count_of_cut_some _ _ _ _ h2
          obtain ⟨e, -⟩ := cut_some _ _ _ _ h2
          simp only [splitN, h1, h2, idText, addressText, c1, c2, hcolon]
          refine ⟨by simp, by simp, fun _ => ?_⟩
          rw [e]
          simp

theorem parsePeers_step_ok (v : Str) (vs : List Str) (result : opts) (h : PeerForm v) :
    parsePeers (v :: vs) result
      = parsePeers vs { result with peers := result.peers ++ [peerOf v] } := by
  obtain ⟨h2, hne, hd, hv⟩ := h
  obtain ⟨s1, s2, s3⟩ := splitN_three v
  simp only [parsePeers, s1.2 h2, ne_eq, not_true_eq_false, if_false, s2,
    ParseUint_digits _ hne hd hv, s3 h2, peerOf]

theorem parsePeers_step_bad (v : Str) (vs : List Str) (result : opts) (h : ¬ PeerForm v) :
    ∃ e, parsePeers (v :: vs) result = (result, some e) ∧ IsPeerError v e := by
  obtain ⟨s1, s2, -⟩ := splitN_three v
  by_cases h2 : 2 ≤ v.count chColon
  · have hrej : ¬ (idText v ≠ [] ∧ (∀ c ∈ idText v, isDigit c = true)
        ∧ decimalValue (idText v) < 2 ^ 64) := fun hh => h ⟨h2, hh⟩
    obtain ⟨range, hr⟩ := ParseUint_reject _ hrej
    refine ⟨_, ?_, Or.inr ⟨h2, range, rfl⟩⟩
    simp only [parsePeers, s1.2 h2, ne_eq, not_true_eq_false, if_false, s2, hr]
  · have hl : (splitN chColon 3 v).length ≠ 3 := fun e => h2 (s1.1 e)
    refine ⟨_, ?_, Or.inl ⟨by omega, rfl⟩⟩
    simp only [parsePeers, hl, ne_eq, not_false_eq_true, if_true]

theorem parsePeers_all (vs : List Str) (result : opts) (h : ∀ v ∈ vs, PeerForm v) :
    parsePeers vs result
      = ({ result with peers := result.peers ++ vs.map peerOf }, none) := by
  induction vs generalizing result with
  | nil => simp [parsePeers]
  | cons v vs ih =>
      rw [parsePeers_step_ok v vs result (h v (List.mem_cons_self _ _)),
        ih _ (fun w hw => h w (List.mem_cons_of_mem _ hw))]
      simp

theorem parsePeers_first_bad (good : List Str) (bad : Str) (rest : List Str) (result : opts)
    (hg : ∀ v ∈ good, PeerForm v) (hb : ¬ PeerForm bad) :
    ∃ e, parsePeers (good ++ bad :: rest) result
        = ({ result with peers := result.peers ++ good.map peerOf }, some e)
      ∧ IsPeerError bad e := by
  induction good generalizing result with
  | nil =>
      obtain ⟨e, he, hn⟩ := parsePeers_step_bad bad rest result hb
      exact ⟨e, by simpa using he, hn⟩
  | cons v vs ih =>
      obtain ⟨e, he, hn⟩ := ih { result with peers := result.peers ++ [peerOf v] }
        (fun w hw => hg w (List.mem_cons_of_mem _ hw))
      refine ⟨e, ?_, hn⟩
      rw [List.cons_append, parsePeers_step_ok v _ result (hg v (List.mem_cons_self _ _)), he]
      simp

theorem split_first_bad (vs : List Str) (h : ∃ v ∈ vs, ¬ PeerForm v) :
    ∃ good bad rest, vs = good ++ bad :: rest ∧ (∀ v ∈ good, PeerForm v) ∧ ¬ PeerForm bad := by
  induction vs with
  | nil => obtain ⟨v, hv, -⟩ := h; exact absurd hv (List.not_mem_nil _)
  | cons w ws ih =>
      by_cases hw : PeerForm w
      · obtain ⟨v, hv, hb⟩ := h
        have hv' : v ∈ ws := by
          rcases List.mem_cons.1 hv with rfl | hv'
          · exact absurd hw hb
          · exact hv'
        obtain ⟨good, bad, rest, e, hg, hbad⟩ := ih ⟨v, hv', hb⟩
        refine ⟨w :: good, bad, rest, by rw [e]; rfl, ?_, hbad⟩
        intro x hx
        rcases List.mem_cons.1 hx with rfl | hx
        · exact hw
        · exact hg x hx
      · exact ⟨[], w, ws, rfl, fun _ hx => absurd hx (List.not_mem_nil _), hw⟩

theorem parsePeers_frame (vs : List Str) (result : opts) :
    parsePeers vs result
      = ({ result with peers := result.peers ++ (parsePeers vs blankOpts).1.peers },
          (parsePeers vs blankOpts).2) := by
  induction vs generalizing result with
  | nil => simp [parsePeers, blankOpts]
  | cons v vs ih =>
      simp only [parsePeers]
      split
      · simp [blankOpts]
      · split
        · simp [blankOpts]
        · next id hid =>
            generalize (⟨id, (splitN chColon 3 v).getD 1 [] ++ ascii ":" ++
              (splitN chColon 3 v).getD 2 []⟩ : NodeInfo) = x
            have e1 := ih { result with peers := result.peers ++ [x] }
            have e2 := ih { blankOpts with peers := blankOpts.peers ++ [x] }
            rw [e1, e2]
            simp [blankOpts]

/-! ### `parseOpts`: the range over the map -/

theorem peerKey_ne : peerKey ≠ peerFileKey := by decide

theorem remaining_nil (values : Values) : remaining [] [] values = values := by
  unfold remaining
  rw [List.filter_eq_self]
  intro e _
  simp

theorem remaining_delete_peer (vs pf : List Str) (values : Values) (h : vs ≠ []) :
    remaining [] pf (values.delete (ascii "peer")) = remaining vs pf values := by
  unfold remaining Values.delete
  rw [List.filter_filter]
  apply List.filter_congr
  intro e _
  have hk : ascii "peer" = peerKey := rfl
  rw [hk]
  by_cases h1 : e.1 = peerKey <;> simp [h1, h]

theorem remaining_delete_peerFile (pv vs : List Str) (values : Values) (h : vs ≠ []) :
    remaining pv [] (values.delete (ascii "peer-file")) = remaining pv vs values := by
  unfold remaining Values.delete
  rw [List.filter_filter]
  apply List.filter_congr
  intro e _
  have hk : ascii "peer-file" = peerFileKey := rfl
  rw [hk]
  by_cases h1 : e.1 = peerFileKey <;> simp [h1, h]

theorem Values.get_cons (k : Str) (vs : List Str) (rest : Values) (key : Str) :
    Values.get ((k, vs) :: rest) key = if k = key then vs else Values.get rest key := rfl

theorem rangeValues_closed (entries : List (Str × List Str)) (result : opts) (values : Values)
    (hk : (Values.keys entries).Nodup) :
    (rangeValues entries result values).2
        = (parsePeers (Values.get entries peerKey) blankOpts).2
      ∧ ((parsePeers (Values.get entries peerKey) blankOpts).2 = none →
          rangeValues entries result values
            = (({ peers := result.peers
                    ++ (parsePeers (Values.get entries peerKey) blankOpts).1.peers,
                  peerFile := if Values.get entries peerFileKey = [] then result.peerFile
                    else (Values.get entries peerFileKey).getD 0 [],
                  dsn := result.dsn, driverName := result.driverName },
                remaining (Values.get entries peerKey) (Values.get entries peerFileKey) values),
               none)) := by
  induction entries generalizing result values with
  | nil =>
      simp [rangeValues, Values.get, parsePeers, remaining_nil, blankOpts]
  | cons e rest ih =>
      obtain ⟨k, vs⟩ := e
      simp only [Values.keys, List.map_cons, List.nodup_cons] at hk
      obtain ⟨hnk, hrest⟩ := hk
      have hkp : ascii "peer" = peerKey := rfl
      have hkf : ascii "peer-file" = peerFileKey := rfl
      unfold rangeValues
      rw [hkp, hkf]
      by_cases hvs : vs = []
      · subst hvs
        simp only [List.length_nil, if_true]
        have g : ∀ key, Values.get ((k, []) :: rest) key = Values.get rest key := by
          intro key
          rw [Values.get_cons]
          split
          · next hkk => subst hkk; exact (Values.get_of_not_mem rest _ hnk).symm
          · rfl
        rw [g, g]
        exact ih result values hrest
      · have hl : ¬ vs.length = 0 := fun h => hvs (List.length_eq_zero.1 h)
        simp only [hl, if_false]
        by_cases h1 : k = peerKey
        · subst h1
          have gp : Values.get ((peerKey, vs) :: rest) peerKey = vs := by
            simp [Values.get_cons]
          have gf : Values.get ((peerKey, vs) :: rest) peerFileKey
              = Values.get rest peerFileKey := by
            simp [Values.get_cons, peerKey_ne]
          have gr : Values.get rest peerKey = [] := Values.get_of_not_mem rest _ hnk
          rw [gp, gf]
          simp only [if_true]
          have hf := parsePeers_frame vs result
          cases hP : (parsePeers vs blankOpts).2 with
          | some err =>
              rw [hP] at hf
              rw [hf]
              simp
          | none =>
              rw [hP] at hf
              rw [hf]
              simp only
              obtain ⟨i1, i2⟩ := ih
                { result with peers := result.peers ++ (parsePeers vs blankOpts).1.peers }
                (values.delete peerKey) hrest
              rw [gr] at i1 i2
              have i3 := i2 rfl
              refine ⟨?_, fun _ => ?_⟩
              · rw [i1]; rfl
              · rw [i3]
                have := remaining_delete_peer vs (Values.get rest peerFileKey) values hvs
                rw [hkp] at this
                simp [parsePeers, blankOpts, this]
        · simp only [h1, if_false]
          by_cases h2 : k = peerFileKey
          · subst h2
            have gp : Values.get ((peerFileKey, vs) :: rest) peerKey
                = Values.get rest peerKey := by
              simp [Values.get_cons, Ne.symm peerKey_ne]
            have gf : Values.get ((peerFileKey, vs) :: rest) peerFileKey = vs := by
              simp [Values.get_cons]
            have gr : Values.get rest peerFileKey = [] := Values.get_of_not_mem rest _ hnk
            rw [gp, gf]
            simp only [if_true]
            obtain ⟨i1, i2⟩ := ih { result with peerFile := vs.getD 0 [] }
              (values.delete peerFileKey) hrest
            rw [gr] at i2
            refine ⟨i1, fun hn => ?_⟩
            rw [i2 hn]
            have := remaining_delete_peerFile (Values.get rest peerKey) vs values hvs
            rw [hkf] at this
            simp [hvs, this]
          · simp only [h2, if_false]
            have gp : Values.get ((k, vs) :: rest) peerKey = Values.get rest peerKey := by
              simp [Values.get_cons, h1]
            have gf : Values.get ((k, vs) :: rest) peerFileKey
                = Values.get rest peerFileKey := by
              simp [Values.get_cons, h2]
            rw [gp, gf]
            exact ih result values hrest

/-! ### `parseOpts` in closed form -/

theorem splitN_two (sep : Fin 256) (s : Str) :
    splitN sep 2 s = match cut sep s with
      | none => [s]
      | some (a, b) => [a, b] := by
  simp only [splitN]

theorem parseOptsIn_closed (order : Values → List (Str × List Str))
    (horder : ∀ m : Values, (order m).Perm m) (dsn : Str) :
    (∀ e, (ParseQuery (queryOf dsn)).2 = some e →
        parseOptsIn order dsn
          = ({ peers := [], peerFile := [], dsn := dsn, driverName := [] }, some e))
      ∧ ((ParseQuery (queryOf dsn)).2 = none →
          (parseOptsIn order dsn).2 = (parsePeers (peerValues dsn) blankOpts).2
            ∧ ((parsePeers (peerValues dsn) blankOpts).2 = none →
                parseOptsIn order dsn = (acceptedOpts dsn, none))) := by
  cases hc : cut chQuestion dsn with
  | none =>
      have hq : queryOf dsn = [] := by simp [queryOf, hc]
      have hb : baseOf dsn = dsn := by simp [baseOf, hc]
      have hP : ParseQuery [] = ([], none) := rfl
      have hs : splitN chQuestion 2 dsn = [dsn] := by rw [splitN_two, hc]
      refine ⟨?_, ?_⟩
      · intro e he
        rw [hq, hP] at he
        simp at he
      · intro _
        have hv : peerValues dsn = [] := by simp [peerValues, hq, hP, Values.get]
        have hf : peerFileValues dsn = [] := by simp [peerFileValues, hq, hP, Values.get]
        have hr : restOf dsn = [] := by simp [restOf, hq, hP, remaining]
        refine ⟨?_, fun _ => ?_⟩
        · simp [parseOptsIn, hs, hv, parsePeers]
        · simp [parseOptsIn, hs, acceptedOpts, hv, hf, hr, hb, parsePeers, blankOpts]
  | some p =>
      obtain ⟨base, query⟩ := p
      have hq : queryOf dsn = query := by simp [queryOf, hc]
      have hb : baseOf dsn = base := by simp [baseOf, hc]
      have hs : splitN chQuestion 2 dsn = [base, query] := by rw [splitN_two, hc]
      rw [hq]
      unfold parseOptsIn
      simp only [hs, List.length_cons, List.length_nil, Nat.reduceAdd, OfNat.ofNat_ne_one,
        if_false, List.getD_cons_succ, List.getD_cons_zero]
      refine ⟨?_, ?_⟩
      · intro e he
        cases hpq : ParseQuery query with
        | mk values err =>
            rw [hpq] at he
            simp only at he
            subst he
            rfl
      · intro hn
        have hwf := ParseQuery_WF query
        cases hpq : ParseQuery query with
        | mk values err =>
            rw [hpq] at hn hwf
            simp only at hn hwf
            subst hn
            simp only
            have hperm := horder values
            have hk : (Values.keys (order values)).Nodup :=
              (hperm.symm.map Prod.fst).nodup_iff.1 hwf.1
            have gp : Values.get (order values) peerKey = peerValues dsn := by
              rw [peerValues, hq, hpq]
              exact Values.get_perm values _ hperm.symm hwf.1 peerKey
            have gf : Values.get (order values) peerFileKey = peerFileValues dsn := by
              rw [peerFileValues, hq, hpq]
              exact Values.get_perm values _ hperm.symm hwf.1 peerFileKey
            obtain ⟨c1, c2⟩ := rangeValues_closed (order values)
              { peers := [], peerFile := [], dsn := dsn, driverName := [] } values hk
            rw [gp, gf] at c2
            rw [gp] at c1
            refine ⟨?_, fun hok => ?_⟩
            · rw [← c1]
              cases hr : rangeValues (order values)
                  { peers := [], peerFile := [], dsn := dsn, driverName := [] } values with
              | mk rv err =>
                  obtain ⟨r1, v1⟩ := rv
                  cases err with
                  | some e => rfl
                  | none =>
                      simp only
                      split <;> rfl
            · rw [c2 hok]
              simp only [acceptedOpts, restOf, hq, hpq, hb, List.nil_append]
              split <;> rfl

/-- The order in which the map range visits the entries changes neither the error of
`parseOpts` nor, when there is none, its result. -/
theorem parseOptsIn_order (order : Values → List (Str × List Str))
    (horder : ∀ m : Values, (order m).Perm m) (dsn : Str) :
    (parseOptsIn order dsn).2 = (parseOpts dsn).2
      ∧ ((parseOpts dsn).2 = none → parseOptsIn order dsn = parseOpts dsn) := by
  obtain ⟨a1, a2⟩ := parseOptsIn_closed order horder dsn
  obtain ⟨b1, b2⟩ := parseOptsIn_closed id (fun m => List.Perm.refl m) dsn
  unfold parseOpts
  cases hq : (ParseQuery (queryOf dsn)).2 with
  | some e =>
      rw [a1 e hq, b1 e hq]
      exact ⟨rfl, fun _ => rfl⟩
  | none =>
      obtain ⟨a3, a4⟩ := a2 hq
      obtain ⟨b3, b4⟩ := b2 hq
      refine ⟨by rw [a3, b3], fun h => ?_⟩
      rw [b3] at h
      rw [a4 h, b4 h]

theorem parseOptsIn_accepted (order : Values → List (Str × List Str))
    (horder : ∀ m : Values, (order m).Perm m) (dsn : Str)
    (h : (parseOptsIn order dsn).2 = none) :
    (ParseQuery (queryOf dsn)).2 = none ∧ (parsePeers (peerValues dsn) blankOpts).2 = none
      ∧ parseOptsIn order dsn = (acceptedOpts dsn, none) := by
  obtain ⟨a1, a2⟩ := parseOptsIn_closed order horder dsn
  cases hq : (ParseQuery (queryOf dsn)).2 with
  | some e =>
      rw [a1 e hq] at h
      simp at h
  | none =>
      obtain ⟨a3, a4⟩ := a2 hq
      rw [a3] at h
      exact ⟨rfl, h, a4 h⟩

theorem Values.get_filter (m : Values) (p : Str → Bool) (key : Str) :
    Values.get (m.filter (fun e => p e.1)) key = if p key = true then m.get key else [] := by
  induction m with
  | nil => simp [Values.get]
  | cons e rest ih =>
      obtain ⟨k, vs⟩ := e
      rw [List.filter_cons]
      cases hp : p k with
      | true =>
          simp only [if_true, Values.get_cons, ih]
          by_cases hk : k = key
          · subst hk; simp [hp]
          · simp [hk]
      | false =>
          simp only [Bool.false_eq_true, if_false, ih, Values.get_cons]
          by_cases hk : k = key
          · subst hk; simp [hp]
          · simp [hk]

theorem Values.WF_filter (m : Values) (p : Str × List Str → Bool) (h : m.WF) :
    Values.WF (m.filter p) := by
  refine ⟨?_, fun e he => h.2 e (List.mem_of_mem_filter he)⟩
  exact List.Nodup.sublist ((List.filter_sublist m).map Prod.fst) h.1

theorem get_remaining (pv pf : List Str) (values : Values) (key : Str) :
    (remaining pv pf values).get key
      = if (key = peerKey ∧ pv ≠ []) ∨ (key = peerFileKey ∧ pf ≠ []) then []
        else values.get key := by
  unfold remaining
  rw [Values.get_filter values
    (fun k => !(decide (k = peerKey ∧ pv ≠ []) || decide (k = peerFileKey ∧ pf ≠ []))) key]
  by_cases h : (key = peerKey ∧ pv ≠ []) ∨ (key = peerFileKey ∧ pf ≠ [])
  · rw [if_pos h]
    rcases h with h | h <;> simp [h]
  · rw [if_neg h]
    simp only [not_or] at h
    simp [h.1, h.2]

theorem get_restOf (dsn key : Str) :
    (restOf dsn).get key
      = if key = peerKey ∨ key = peerFileKey then []
        else (ParseQuery (queryOf dsn)).1.get key := by
  unfold restOf
  rw [get_remaining]
  by_cases h1 : key = peerKey
  · subst h1
    by_cases h2 : peerValues dsn = []
    · simp [h2, peerKey_ne]
      exact h2
    · simp [h2]
  · by_cases h2 : key = peerFileKey
    · subst h2
      by_cases h3 : peerFileValues dsn = []
      · simp [h3, Ne.symm peerKey_ne]
        exact h3
      · simp [h3]
    · simp [h1, h2]

theorem baseOf_plain (dsn : Str) : chQuestion ∉ baseOf dsn := by
  unfold baseOf
  cases hc : cut chQuestion dsn with
  | none => exact cut_none _ _ hc
  | some p =>
      obtain ⟨a, b⟩ := p
      exact (cut_some _ _ _ _ hc).2

theorem baseOf_of_plain (s : Str) (h : chQuestion ∉ s) : baseOf s = s ∧ queryOf s = [] := by
  simp [baseOf, queryOf, cut_of_not_mem _ _ h]

theorem baseOf_append (base enc : Str) (h : chQuestion ∉ base) :
    baseOf (base ++ ascii "?" ++ enc) = base ∧ queryOf (base ++ ascii "?" ++ enc) = enc := by
  have e : base ++ ascii "?" ++ enc = base ++ chQuestion :: enc := by
    have : ascii "?" = [chQuestion] := by decide
    rw [this]; simp
  simp [baseOf, queryOf, e, cut_append _ _ _ h]

/-! ### `parseOpts`: the claims -/

set_option maxRecDepth 100000 in
/-- The examples of the specification, run on the model. -/
theorem parseOpts_examples :
    parseOpts (ascii "db")
        = ({ peers := [], peerFile := [], dsn := ascii "db", driverName := [] }, none)
      ∧ parseOpts (ascii "db?peer=1:10.0.0.1:9000&peer=2:10.0.0.2:9000")
        = ({ peers := [⟨1, ascii "10.0.0.1:9000"⟩, ⟨2, ascii "10.0.0.2:9000"⟩], peerFile := [],
             dsn := ascii "db", driverName := [] }, none)
      ∧ (parseOpts (ascii "db?peer=bad")).2
        = some (.text (ascii "must be ID:IP:PORT format got: bad"))
      ∧ parseOpts (ascii "db?peer-file=/tmp/p&foo=bar")
        = ({ peers := [], peerFile := ascii "/tmp/p", dsn := ascii "db?foo=bar",
             driverName := [] }, none) := by
  decide

/-- C4: for every connection string that `parseOpts` accepts, in whatever order the map range
visits the keys, the DSN of the result has the base of the input, and its query decodes
without error to a map that gives every key other than `peer` and `peer-file` exactly the
values the input query gives it, in the same order, and gives `peer` and `peer-file` none.
When the input query has no other key the DSN is the base alone, and a string with no `?`
is returned as it is. -/
theorem parseOpts_dsn (order : Values → List (Str × List Str))
    (horder : ∀ m : Values, (order m).Perm m) (dsn : Str)
    (h : (parseOptsIn order dsn).2 = none) :
    baseOf (parseOptsIn order dsn).1.dsn = baseOf dsn
      ∧ (ParseQuery (queryOf (parseOptsIn order dsn).1.dsn)).2 = none
      ∧ (∀ key, (ParseQuery (queryOf (parseOptsIn order dsn).1.dsn)).1.get key
          = if key = ascii "peer" ∨ key = ascii "peer-file" then []
            else (ParseQuery (queryOf dsn)).1.get key)
      ∧ ((∀ key, key ≠ ascii "peer" → key ≠ ascii "peer-file" →
            (ParseQuery (queryOf dsn)).1.get key = []) →
          (parseOptsIn order dsn).1.dsn = baseOf dsn)
      ∧ (chQuestion ∉ dsn → (parseOptsIn order dsn).1.dsn = dsn) := by
  obtain ⟨-, -, hacc⟩ := parseOptsIn_accepted order horder dsn h
  have hkp : ascii "peer" = peerKey := rfl
  have hkf : ascii "peer-file" = peerFileKey := rfl
  rw [hacc, hkp, hkf]
  simp only [acceptedOpts]
  have hbase := baseOf_plain dsn
  have hwf : (restOf dsn).WF := Values.WF_filter _ _ (ParseQuery_WF (queryOf dsn))
  by_cases hr : (restOf dsn).length = 0
  · have hnil : restOf dsn = [] := List.length_eq_zero.1 hr
    rw [if_pos hr]
    obtain ⟨e1, e2⟩ := baseOf_of_plain _ hbase
    rw [e1, e2]
    refine ⟨rfl, rfl, ?_, fun _ => rfl, fun hn => (baseOf_of_plain dsn hn).1⟩
    intro key
    have := get_restOf dsn key
    rw [hnil] at this
    exact this
  · rw [if_neg hr]
    obtain ⟨e1, e2⟩ := baseOf_append (baseOf dsn) (restOf dsn).Encode hbase
    rw [e1, e2]
    obtain ⟨p1, p2⟩ := ParseQuery_Encode (restOf dsn) hwf
    refine ⟨rfl, p1, ?_, ?_, ?_⟩
    · intro key
      rw [p2 key, get_restOf]
    · intro hall
      exfalso
      apply hr
      rw [List.length_eq_zero]
      apply List.eq_nil_iff_forall_not_mem.2
      intro e he
      have hg := Values.get_of_mem (restOf dsn) e.1 e.2 hwf.1 he
      have hne := hwf.2 e he
      rw [get_restOf] at hg
      by_cases hk : e.1 = peerKey ∨ e.1 = peerFileKey
      · rw [if_pos hk] at hg
        exact hne hg.symm
      · rw [if_neg hk] at hg
        simp only [not_or] at hk
        rw [hall e.1 hk.1 hk.2] at hg
        exact hne hg.symm
    · intro hn
      exfalso
      apply hr
      obtain ⟨-, q⟩ := baseOf_of_plain dsn hn
      simp [restOf, q, ParseQuery, split, parseQueryStep, remaining]

set_option maxRecDepth 100000 in
theorem parseOpts_dsn_witness :
    (parseOpts (ascii "db?peer-file=/tmp/p&foo=bar&peer=1:10.0.0.1:9000")).2 = none
      ∧ (parseOpts (ascii "db?peer-file=/tmp/p&foo=bar&peer=1:10.0.0.1:9000")).1.dsn
          = ascii "db?foo=bar"
      ∧ (ParseQuery (queryOf (parseOpts
            (ascii "db?peer-file=/tmp/p&foo=bar&peer=1:10.0.0.1:9000")).1.dsn)).1.get
            (ascii "foo") = [ascii "bar"] :=
  ⟨by decide, by decide,
   ((parseOpts_dsn id (fun m => List.Perm.refl m)
      (ascii "db?peer-file=/tmp/p&foo=bar&peer=1:10.0.0.1:9000") (by decide)).2.2.1
      (ascii "foo")).trans (by decide)⟩

set_option maxRecDepth 100000 in
/-- C5 (counterexample): in `db?peer=1:10.0.0.1:9000&x=%zz` the only `peer` value has the
form `ID:IP:PORT` with a decimal id, but the query does not parse (`%zz` is no escape), and
`parseOpts` returns the error of `url.ParseQuery` (lines 249-252) with no node descriptor at
all. -/
theorem parseOpts_unparsed_query_has_no_peers :
    peerValues (ascii "db?peer=1:10.0.0.1:9000&x=%zz") = [ascii "1:10.0.0.1:9000"]
      ∧ (∀ v ∈ peerValues (ascii "db?peer=1:10.0.0.1:9000&x=%zz"), PeerForm v)
      ∧ parseOpts (ascii "db?peer=1:10.0.0.1:9000&x=%zz")
        = ({ peers := [], peerFile := [], dsn := ascii "db?peer=1:10.0.0.1:9000&x=%zz",
             driverName := [] }, some (.escape (ascii "%zz"))) := by
  refine ⟨by decide, by decide, by decide⟩

/-- C5 (as amended): when the query of a connection string parses (`url.ParseQuery` reports
no error) and every value it gives to `peer` has the form `ID:IP:PORT` with `ID` a decimal
unsigned 64-bit integer, `parseOpts` returns no error and one node descriptor per `peer`
value, in the order of the values in the query, whose id is the number `ID` denotes and
whose address is the text after the first colon (the two remaining segments joined by a
colon), in whatever order the map range visits the keys. -/
theorem parseOpts_peers (order : Values → List (Str × List Str))
    (horder : ∀ m : Values, (order m).Perm m) (dsn : Str)
    (hq : (ParseQuery (queryOf dsn)).2 = none)
    (hform : ∀ v ∈ peerValues dsn, PeerForm v) :
    (parseOptsIn order dsn).2 = none
      ∧ (parseOptsIn order dsn).1.peers
          = (peerValues dsn).map
              (fun v => { ID := decimalValue (idText v), Address := addressText v }) := by
  obtain ⟨-, a2⟩ := parseOptsIn_closed order horder dsn
  obtain ⟨a3, a4⟩ := a2 hq
  have hP := parsePeers_all (peerValues dsn) blankOpts hform
  have hok : (parsePeers (peerValues dsn) blankOpts).2 = none := by rw [hP]
  refine ⟨by rw [a3, hok], ?_⟩
  rw [a4 hok]
  show (parsePeers (peerValues dsn) blankOpts).1.peers = _
  rw [hP]
  simp only [blankOpts, List.nil_append]
  rfl

set_option maxRecDepth 100000 in
theorem parseOpts_peers_witness :
    (ParseQuery (queryOf (ascii "db?peer=1:10.0.0.1:9000&x=y&peer=2:[::1]:9000"))).2 = none
      ∧ peerValues (ascii "db?peer=1:10.0.0.1:9000&x=y&peer=2:[::1]:9000")
          = [ascii "1:10.0.0.1:9000", ascii "2:[::1]:9000"]
      ∧ (parseOpts (ascii "db?peer=1:10.0.0.1:9000&x=y&peer=2:[::1]:9000")).1.peers
          = [⟨1, ascii "10.0.0.1:9000"⟩, ⟨2, ascii "[::1]:9000"⟩] :=
  ⟨by decide, by decide,
   (parseOpts_peers id (fun m => List.Perm.refl m)
      (ascii "db?peer=1:10.0.0.1:9000&x=y&peer=2:[::1]:9000") (by decide)
      (by decide)).2.trans (by decide)⟩

set_option maxRecDepth 100000 in
/-- C6 (counterexample): the error of `parseOpts` does not always name the offending `peer`
value. In `db?peer=bad&x=%zz` the value `bad` has no colon, but the query does not parse and
the error returned is the one of `url.ParseQuery`, whose text does not contain `bad`. In
`db?peer=x:h:1` the first segment `x` is no number, and the text of the error names that
segment only: it does not contain the value `x:h:1`. -/
theorem parseOpts_error_without_peer_value :
    (peerValues (ascii "db?peer=bad&x=%zz") = [ascii "bad"]
        ∧ ¬ PeerForm (ascii "bad")
        ∧ (parseOpts (ascii "db?peer=bad&x=%zz")).2 = some (.escape (ascii "%zz"))
        ∧ ¬ (ascii "bad" <:+: (Error.escape (ascii "%zz")).message))
      ∧ (peerValues (ascii "db?peer=x:h:1") = [ascii "x:h:1"]
        ∧ ¬ PeerForm (ascii "x:h:1")
        ∧ (parseOpts (ascii "db?peer=x:h:1")).2
            = some (.wrap (.numError (ascii "x") false) (ascii "failed to parse x"))
        ∧ (Error.wrap (.numError (ascii "x") false) (ascii "failed to parse x")).message
            = ascii "failed to parse x: strconv.ParseUint: parsing \"x\": invalid syntax"
        ∧ ¬ (ascii "x:h:1" <:+:
              (Error.wrap (.numError (ascii "x") false) (ascii "failed to parse x")).message)) := by
  refine ⟨⟨by decide, by decide, by decide, by decide⟩,
    ⟨by decide, by decide, by decide, by decide, by decide⟩⟩

/-- C6 (as amended): when the query of a connection string parses and gives `peer` a value
that has fewer than two colons (it does not split into three segments) or whose first
segment is not a decimal unsigned 64-bit integer, `parseOpts` fails, in whatever order the
map range visits the keys, with the error of the first such value `bad`. For a wrong segment
count the text of the error is `must be ID:IP:PORT format got: ` followed by `bad`, so it
names the whole value. For a bad id the error is the `ParseUint` error on the first segment
of `bad`, wrapped, and its text begins `failed to parse `, the first segment, `: `: it names
the offending first segment, not the whole value. -/
theorem parseOpts_rejects_bad_peer (order : Values → List (Str × List Str))
    (horder : ∀ m : Values, (order m).Perm m) (dsn : Str)
    (hq : (ParseQuery (queryOf dsn)).2 = none)
    (hbad : ∃ v ∈ peerValues dsn, ¬ PeerForm v) :
    ∃ good bad rest e,
      peerValues dsn = good ++ bad :: rest
        ∧ (∀ v ∈ good, PeerForm v) ∧ ¬ PeerForm bad
        ∧ (parseOptsIn order dsn).2 = some e
        ∧ ((bad.count chColon < 2
              ∧ e = .text (ascii "must be ID:IP:PORT format got: " ++ bad)
              ∧ e.message = ascii "must be ID:IP:PORT format got: " ++ bad
              ∧ bad <:+: e.message)
            ∨ (2 ≤ bad.count chColon
              ∧ ∃ range, e = .wrap (.numError (idText bad) range)
                    (ascii "failed to parse " ++ idText bad)
                ∧ e.message = ascii "failed to parse " ++ idText bad ++ ascii ": "
                    ++ (Error.numError (idText bad) range).message
                ∧ (ascii "failed to parse " ++ idText bad ++ ascii ": ") <+: e.message)) := by
  obtain ⟨-, a2⟩ := parseOptsIn_closed order horder dsn
  obtain ⟨a3, -⟩ := a2 hq
  obtain ⟨good, bad, rest, hsplit, hg, hb⟩ := split_first_bad _ hbad
  obtain ⟨e, he, hn⟩ := parsePeers_first_bad good bad rest blankOpts hg hb
  refine ⟨good, bad, rest, e, hsplit, hg, hb, ?_, ?_⟩
  · rw [a3]
    have : peerValues dsn = good ++ bad :: rest := hsplit
    rw [this, he]
  · rcases hn with ⟨h1, h2⟩ | ⟨h1, range, h2⟩
    · refine Or.inl ⟨h1, h2, by rw [h2]; rfl, ?_⟩
      rw [h2]
      exact ⟨ascii "must be ID:IP:PORT format got: ", [], by simp [Error.message]⟩
    · refine Or.inr ⟨h1, range, h2, by rw [h2]; simp [Error.message], ?_⟩
      rw [h2]
      exact ⟨(Error.numError (idText bad) range).message, by simp [Error.message]⟩

set_option maxRecDepth 100000 in
theorem parseOpts_rejects_bad_peer_witness :
    ((ParseQuery (queryOf (ascii "db?peer=1:h:9&peer=bad"))).2 = none
        ∧ (∃ v ∈ peerValues (ascii "db?peer=1:h:9&peer=bad"), ¬ PeerForm v)
        ∧ (parseOpts (ascii "db?peer=1:h:9&peer=bad")).2
            = some (.text (ascii "must be ID:IP:PORT format got: bad"))
        ∧ ∃ good bad rest e,
            peerValues (ascii "db?peer=1:h:9&peer=bad") = good ++ bad :: rest
              ∧ (∀ v ∈ good, PeerForm v) ∧ ¬ PeerForm bad
              ∧ (parseOptsIn id (ascii "db?peer=1:h:9&peer=bad")).2 = some e)
      ∧ ((ParseQuery (queryOf (ascii "db?peer=1:h:9&peer=x:h:1"))).2 = none
        ∧ (∃ v ∈ peerValues (ascii "db?peer=1:h:9&peer=x:h:1"), ¬ PeerForm v)
        ∧ (parseOpts (ascii "db?peer=1:h:9&peer=x:h:1")).2
            = some (.wrap (.numError (ascii "x") false) (ascii "failed to parse x"))
        ∧ ∃ good bad rest e,
            peerValues (ascii "db?peer=1:h:9&peer=x:h:1") = good ++ bad :: rest
              ∧ (∀ v ∈ good, PeerForm v) ∧ ¬ PeerForm bad
              ∧ (parseOptsIn id (ascii "db?peer=1:h:9&peer=x:h:1")).2 = some e) :=
  ⟨⟨by decide, by decide, by decide,
    (parseOpts_rejects_bad_peer id (fun m => List.Perm.refl m)
        (ascii "db?peer=1:h:9&peer=bad") (by decide) (by decide)).imp
      (fun _ h => h.imp (fun _ h => h.imp (fun _ h => h.imp
        (fun _ h => ⟨h.1, h.2.1, h.2.2.1, h.2.2.2.1⟩))))⟩,
   ⟨by decide, by decide, by decide,
    (parseOpts_rejects_bad_peer id (fun m => List.Perm.refl m)
        (ascii "db?peer=1:h:9&peer=x:h:1") (by decide) (by decide)).imp
      (fun _ h => h.imp (fun _ h => h.imp (fun _ h => h.imp
        (fun _ h => ⟨h.1, h.2.1, h.2.2.1, h.2.2.2.1⟩))))⟩⟩

end Dqlite
